import Mathlib

/-!
# Verification of `app.py` (sustend call-transcript analyzer)

Shallow embedding of the core logic of `src/app.py`:

* `call_groq`       (lines 44-69)  — backoff HTTP client;
* `redact_pii`      (lines 72-81)  — regex PII redaction;
* `within_size_limit` (lines 84-87) — transcript size limiting;
* `rate_limit_or_raise` (lines 90-98) — sliding-window rate limiter;
* `analyze_transcript` (lines 359-408) — the orchestrator;
* `api_analyze`     (lines 138-148) — the JSON route pipeline.

Strings are modelled as `List Char`.  Python's `re` defaults extend
`\w`, `\d`, `\s` to all of Unicode; this development models the ASCII
semantics of those classes (the hard-coded prompt text of the program is
ASCII except for one en-dash, on which both semantics agree: the en-dash
is neither a word character, nor a digit, nor whitespace, in Python or
here).  The three regular expressions of `redact_pii` are fixed patterns,
so each is embedded as a deterministic matcher computing the exact match
length Python's backtracking engine produces at a given start position;
the matchers were derived by unfolding the backtracking order
(greedy/lazy) of each pattern.  `re.sub` replaces the leftmost match,
then continues scanning after it; word boundaries `\b` depend only on
whether the previous character is a word character, so the scanner
threads a single `prevWord : Bool` (false at the start of the string).
Recursions that advance by a computed match length are fuelled by the
input length so that every definition reduces by `rfl`/`decide`;
sufficient fuel is always supplied and lemmas carry the
`length ≤ fuel` invariant.
-/

set_option maxRecDepth 1000000

namespace Sustend

/-! ## Character classes (ASCII fragment of the `re` classes in app.py) -/

/-- `[A-Za-z]`. -/
def isAsciiAlpha (c : Char) : Bool := ('A' ≤ c && c ≤ 'Z') || ('a' ≤ c && c ≤ 'z')

/-- `\d` (ASCII). -/
def isAsciiDigit (c : Char) : Bool := '0' ≤ c && c ≤ '9'

/-- `\w` (ASCII): letters, digits, underscore.  Used by `\b`. -/
def isWordChar (c : Char) : Bool := isAsciiAlpha c || isAsciiDigit c || c = '_'

/-- The class `[A-Za-z0-9._%+-]` (local part of the email pattern). -/
def isLocalChar (c : Char) : Bool :=
  isAsciiAlpha c || isAsciiDigit c || c = '.' || c = '_' || c = '%' || c = '+' || c = '-'

/-- The class `[A-Za-z0-9.-]` (domain part of the email pattern). -/
def isDomainChar (c : Char) : Bool := isAsciiAlpha c || isAsciiDigit c || c = '.' || c = '-'

/-- `\s` (ASCII): space, tab, newline, CR, vertical tab, form feed. -/
def isSpaceChar (c : Char) : Bool :=
  c = ' ' || c = '\t' || c = '\n' || c = '\x0d' || c = '\x0b' || c = '\x0c'

/-- The class `[\d\s().-]` of the phone pattern. -/
def isPhoneClassChar (c : Char) : Bool :=
  isAsciiDigit c || isSpaceChar c || c = '(' || c = ')' || c = '.' || c = '-'

/-- The class `[ -]` of the card pattern (space or hyphen separators). -/
def isSepChar (c : Char) : Bool := c = ' ' || c = '-'

/-- Length of the maximal prefix of `s` whose characters all satisfy `p`. -/
def countRun (p : Char → Bool) : List Char → Nat
  | [] => 0
  | c :: rest => if p c then countRun p rest + 1 else 0

/-! ## The email matcher

Pattern (app.py line 76): `[A-Za-z0-9._%+-]+@[A-Za-z0-9.-]+\.[A-Za-z]{2,}`.
At a given start position the backtracking engine first takes the maximal
local-part run (the class excludes `@`, so shorter runs can never be
followed by `@`), requires a literal `@`, takes the maximal domain run,
and then backtracks the greedy `+` from the longest split, looking for
the largest `t` such that the `t`-th domain character is `.` followed by
at least two letters; the final `[A-Za-z]{2,}` is greedy and maximal.
The pattern has no `\b`, so the matcher ignores the previous character. -/

/-- Search `t = d-1, d-2, …, 1` for the largest domain split: `emailDot rest t`
returns `some (t + 1 + a)` for the largest `t' ≤ t` with `rest[t'] = '.'`
followed by an alpha run `a ≥ 2`. -/
def emailDot (rest : List Char) : Nat → Option Nat
  | 0 => none
  | t + 1 =>
    let a := countRun isAsciiAlpha (rest.drop (t + 2))
    if rest.getD (t + 1) ' ' = '.' && decide (2 ≤ a) then some (t + 1 + 1 + a)
    else emailDot rest t

/-- Match length of the email pattern at the head of `s` (none if no match). -/
def emailMatch (s : List Char) : Option Nat :=
  let l := countRun isLocalChar s
  if l = 0 then none
  else if s.getD l ' ' = '@' && decide (l < s.length) then
    let rest := s.drop (l + 1)
    let d := countRun isDomainChar rest
    match d with
    | 0 => none
    | d' + 1 => (emailDot rest d').map (fun tl => l + 1 + tl)
  else none

/-! ## The phone matcher

Pattern (app.py line 78): `\b\+?\d[\d\s().-]{7,}\b`.
`\b` holds iff exactly one side is a word character.  The optional `+` is
tried first; if the head is `+` the fallback (empty `\+?`) immediately
fails on `\d`, so the branch structure below is exact.  After the leading
digit the greedy `{7,}` takes the maximal class run `m` and backtracks
`k = m, m-1, …, 7` until the trailing `\b` holds between the `k`-th run
character and its successor. -/

/-- Find the largest `k' ≤ k` (with `k' ≥ 7`) such that `\b` holds after
the `k'`-th character of `tail` (1-indexed). -/
def phoneFind (tail : List Char) : Nat → Option Nat
  | 0 => none
  | k + 1 =>
    if decide (7 ≤ k + 1) then
      let lastW := isWordChar (tail.getD k ' ')
      let nextW := (tail.drop (k + 1)).headD ' ' |> isWordChar
      let nextEnd := decide (tail.length ≤ k + 1)
      if lastW ≠ (nextW && !nextEnd) then some (k + 1) else phoneFind tail k
    else none

/-- The `{7,}`-and-trailing-`\b` part, applied after the leading digit. -/
def phoneTail (tail : List Char) : Option Nat :=
  phoneFind tail (countRun isPhoneClassChar tail)

/-- Match length of the phone pattern at the head of `s`, given whether the
previous character is a word character. -/
def phoneMatch (prevW : Bool) (s : List Char) : Option Nat :=
  match s with
  | [] => none
  | c :: rest =>
    if prevW = isWordChar c then none      -- leading \b fails
    else if c = '+' then
      match rest with
      | d :: rest2 =>
        if isAsciiDigit d then (phoneTail rest2).map (fun k => 2 + k) else none
      | [] => none
    else if isAsciiDigit c then (phoneTail rest).map (fun k => 1 + k)
    else none

/-! ## The card matcher

Pattern (app.py line 80): `\b(?:\d[ -]*?){13,16}\b`.
Unfolding the backtracking order (greedy `{13,16}` extends first; the
lazy `[ -]*?` consumes separators only when the continuation fails)
yields this normal form: after the leading digit, reach 12 further
digits, crossing separator runs ("glue") as needed — below 13 digits the
repetition cannot stop, so the glue crossings are forced and stop at
each digit; from the 13th digit on, the engine deepens only through
digits that follow *immediately* (a separator after the `k`-th digit,
`k ≥ 13`, makes the trailing `\b` hold, ending the match at once), up to
the 16th digit; finally the character after the last consumed digit must
not be a word character (a following letter, underscore, or — when 16
digits were consumed — digit makes the trailing `\b` fail with no
backtracking alternative).  This normal form was cross-validated against
Python's `re` on several hundred thousand random inputs. -/

/-- After a digit, consume separators and digits until `needed` more digits
have been consumed, returning the number of characters consumed; stops
exactly at the last needed digit. -/
def seek13 (needed : Nat) : List Char → Option Nat
  | [] => none
  | c :: rest =>
    if isAsciiDigit c then
      match needed with
      | 0 => none      -- never called with 0
      | 1 => some 1
      | n + 2 => (seek13 (n + 1) rest).map (· + 1)
    else if isSepChar c then (seek13 needed rest).map (· + 1)
    else none

/-- Match length of the card pattern at the head of `s`, given whether the
previous character is a word character. -/
def cardMatch (prevW : Bool) (s : List Char) : Option Nat :=
  match s with
  | [] => none
  | c :: rest =>
    if prevW = isWordChar c then none      -- leading \b fails
    else if !(isAsciiDigit c) then none
    else match seek13 12 rest with
      | none => none
      | some n =>
        let after := rest.drop n
        let ext := min (countRun isAsciiDigit after) 3
        let nxt := after.drop ext
        if nxt.headD ' ' |> isWordChar then
          if nxt.isEmpty then some (1 + n + ext) else none
        else some (1 + n + ext)

/-! ## The `re.sub` scanner and `redact_pii` -/

/-- One `re.sub(pattern, tok, s)` pass: scan left to right threading
`prevW` (whether the character before the current position is a word
character; `false` at the start), replace each leftmost match by `tok`
and continue after it.  `fuel` bounds the recursion (every step consumes
at least one character); callers supply `fuel = s.length`.  A zero-length
match is treated as no match — the three patterns above never match the
empty string. -/
def reSubGo (matcher : Bool → List Char → Option Nat) (tok : List Char) :
    Nat → Bool → List Char → List Char
  | 0, _, s => s
  | _ + 1, _, [] => []
  | fuel + 1, prevW, c :: rest =>
    match matcher prevW (c :: rest) with
    | some (n + 1) =>
      tok ++ reSubGo matcher tok fuel (isWordChar ((c :: rest).getD n ' '))
        ((c :: rest).drop (n + 1))
    | _ => c :: reSubGo matcher tok fuel (isWordChar c) rest

/-- `re.sub` for one of the three patterns. -/
def reSub (matcher : Bool → List Char → Option Nat) (tok : List Char)
    (s : List Char) : List Char :=
  reSubGo matcher tok s.length false s

def tokEmail : List Char := "[REDACTED_EMAIL]".toList
def tokPhone : List Char := "[REDACTED_PHONE]".toList
def tokCard : List Char := "[REDACTED_CARD]".toList

/-- `redact_pii` (app.py lines 72-81): empty text is returned as is
(`if not text`); otherwise the three substitutions run in order
email, phone, card. -/
def redact_pii (text : List Char) : List Char :=
  if text.isEmpty then text
  else
    let t1 := reSub (fun _ s => emailMatch s) tokEmail text
    let t2 := reSub phoneMatch tokPhone t1
    reSub cardMatch tokCard t2

/-! ## Sanity checks (outputs cross-checked against the Python program) -/

example : redact_pii "Customer: my email is a@b.com. Agent: noted.".toList
    = "Customer: my email is [REDACTED_EMAIL]. Agent: noted.".toList := by decide

example : redact_pii "+91 98765 43210 and 4111-1111-1111-1111".toList
    = "+[REDACTED_PHONE]and [REDACTED_PHONE]".toList := by decide

example : redact_pii "call 12345678 now".toList
    = "call [REDACTED_PHONE]now".toList := by decide

example : redact_pii "x a@b.co y".toList = "x [REDACTED_EMAIL] y".toList := by decide

/-! ## `within_size_limit`, Python `str.strip` and `str.replace` -/

/-- `within_size_limit` (app.py lines 84-87), with the configured ceiling
`MAX_TRANSCRIPT_CHARS` as a parameter. -/
def within_size_limit (maxChars : Nat) (text : List Char) : List Char :=
  if text.length ≤ maxChars then text else text.take maxChars

/-- The literal truncation marker appended by `analyze_transcript` (line 404). -/
def TRUNC_MARKER : List Char := "\n[TRUNCATED]".toList

/-- Python `str.strip()` (ASCII whitespace model). -/
def pyStrip (s : List Char) : List Char :=
  ((s.dropWhile isSpaceChar).reverse.dropWhile isSpaceChar).reverse

/-- Python `str.replace(old, new)` for non-empty `old`: replace leftmost
occurrences, continuing after each replacement.  Fuelled like `reSubGo`. -/
def pyReplaceGo (old new : List Char) : Nat → List Char → List Char
  | 0, s => s
  | _ + 1, [] => []
  | fuel + 1, c :: rest =>
    if old.isPrefixOf (c :: rest) then
      new ++ pyReplaceGo old new fuel ((c :: rest).drop old.length)
    else c :: pyReplaceGo old new fuel rest

/-- Python `str.replace(old, new)` (for empty `old`, Python inserts `new`
before every character and at the end). -/
def pyReplace (s old new : List Char) : List Char :=
  if old.isEmpty then new ++ (s.map (fun c => c :: new)).flatten
  else pyReplaceGo old new s.length s

example : pyReplace "hello world".toList "o".toList "0".toList = "hell0 w0rld".toList := by
  decide

/-! ## `call_groq` (app.py lines 44-69)

The network is abstracted as `net : Nat → NetOutcome` giving the outcome
of the `i`-th `requests.post` attempt.  `reqErr` covers every
`requests.RequestException` (connection error, timeout, and the non-2xx
statuses surfaced by `raise_for_status`); `ok content?` is a 2xx
response, `content? = some c` when the JSON body has the chat-completion
shape with `choices[0].message.content = c`, and `content? = none` when
extraction raises (`KeyError`/`IndexError`/`TypeError`/JSON decode
error) — such exceptions are not `RequestException`s, so the `except`
clause at line 65 does not catch them.  Sleep durations are returned (in
seconds, as rationals) in the order `time.sleep` is called. -/

inductive NetOutcome where
  | reqErr (msg : List Char)
  | ok (content : Option (List Char))
deriving DecidableEq

inductive PyErr where
  | runtimeError (msg : List Char)
  | shapeError
deriving DecidableEq

def missingKeyMsg : List Char :=
  "Missing GROQ_API_KEY. Set it in your environment or .env file.".toList

def retriesMsgPre : List Char := "Groq API request failed after retries: ".toList

/-- Python truthiness of the key (`if not GROQ_API_KEY`): `None` and the
empty string are both falsy. -/
def hasKey : Option (List Char) → Bool
  | none => false
  | some s => !s.isEmpty

/-- The retry loop of `call_groq` (lines 59-69): `remaining` attempts are
left, `i` is the current 0-indexed attempt number, `last` the formatted
last error (initially Python's `None`).  On a `RequestException` it
records the error, sleeps `(2 ** attempt) * 0.5` seconds and retries;
the sleep happens inside the `except` block, hence also after the final
failed attempt, before the wrapping `RuntimeError` is raised. -/
def call_groq_go (net : Nat → NetOutcome) :
    Nat → Nat → List Char → Except PyErr (List Char) × List ℚ
  | 0, _, last => (.error (.runtimeError (retriesMsgPre ++ last)), [])
  | remaining + 1, i, _ =>
    match net i with
    | .ok (some content) => (.ok (pyStrip content), [])
    | .ok none => (.error .shapeError, [])
    | .reqErr m =>
      let p := call_groq_go net remaining (i + 1) m
      (p.1, ((2 : ℚ) ^ i / 2) :: p.2)

/-- `call_groq` (lines 44-69). -/
def call_groq (key : Option (List Char)) (net : Nat → NetOutcome) :
    Except PyErr (List Char) × List ℚ :=
  if hasKey key then call_groq_go net 4 0 "None".toList
  else (.error (.runtimeError missingKeyMsg), [])

/-! ## `rate_limit_or_raise` (app.py lines 90-98)

`_RATE_BUCKET` is modelled as a total function from client keys to
timestamp lists (a missing key and `setdefault`'s fresh empty list are
indistinguishable here).  Timestamps and `now` are rationals.  The
returned `Bool` is `true` when the call admits, `false` when it raises;
in both cases the pruned bucket is written back (the in-place
`bucket[:] = …` mutation persists even when the call raises). -/

def rate_limit_or_raise (maxN : Nat) (window : ℚ) (key : List Char) (now : ℚ)
    (st : List Char → List ℚ) : Bool × (List Char → List ℚ) :=
  let bucket := (st key).filter (fun ts => decide (now - window ≤ ts))
  if maxN ≤ bucket.length then (false, Function.update st key bucket)
  else (true, Function.update st key (bucket ++ [now]))

/-! ## `analyze_transcript` (app.py lines 359-408) -/

inductive AnalyzeErr where
  | emptyInput                -- ValueError("Transcript cannot be empty.")
  | groq (e : PyErr)          -- escaped from call_groq
deriving DecidableEq

structure AnalyzeOk where
  transcript : List Char
  summary : List Char
  sentiment : List Char
  timestamp : List Char
deriving DecidableEq

/-- One CSV row (4 fields).  CSV quoting is not modelled: the claims are
about which rows are appended, not the byte encoding of the file. -/
abbrev LogRow := List (List Char)

def headerRow : LogRow :=
  ["Transcript".toList, "Summary".toList, "Sentiment".toList, "Timestamp".toList]

/-- The fixed prompt text before the transcript in the summarization
prompt (lines 372-376; the dash in `2–3` is U+2013). -/
def summaryPrefix : List Char :=
  ("Summarize this customer support call in 2–3 concise sentences. " ++
   "Focus on the customer's problem and any resolution steps.\n\nTranscript:\n").toList

/-- The fixed prompt text before the transcript in the sentiment prompt
(lines 380-384). -/
def sentimentPrefix : List Char :=
  ("Classify the customer's sentiment in ONE WORD from this set: " ++
   "Positive, Neutral, Negative. Only output the single word.\n\nTranscript:\n").toList

/-- Result of a run of `analyze_transcript`: the returned value or the
escaped exception, the resulting CSV file (`none` = the file does not
exist), and the prompt texts passed to `call_groq`, in order. -/
structure AnalyzeOut where
  result : Except AnalyzeErr AnalyzeOk
  file : Option (List LogRow)
  prompts : List (List Char)

/-- `analyze_transcript` (lines 359-408).  `groq` abstracts `call_groq`
with the ambient key and network; `timestamp` abstracts the formatted
`datetime.utcnow()` string.  The code builds each prompt from the
original size-limited transcript and then substitutes the redacted copy
via `str.replace` (lines 377, 385); a row is appended to the CSV only
after both calls succeed (lines 397-401), the header first when the file
does not yet exist. -/
def analyze_transcript (maxChars : Nat)
    (groq : List Char → Except PyErr (List Char))
    (timestamp : List Char) (file : Option (List LogRow))
    (transcript : List Char) : AnalyzeOut :=
  if transcript.isEmpty then ⟨.error .emptyInput, file, []⟩
  else
    let t := within_size_limit maxChars transcript
    let wasTruncated := transcript.length != t.length
    let red := redact_pii t
    let sent1 := pyReplace (summaryPrefix ++ t) t red
    match groq sent1 with
    | .error e => ⟨.error (.groq e), file, [sent1]⟩
    | .ok summary =>
      let sent2 := pyReplace (sentimentPrefix ++ t) t red
      match groq sent2 with
      | .error e => ⟨.error (.groq e), file, [sent1, sent2]⟩
      | .ok sentiment =>
        let row : LogRow := [t, summary, sentiment, timestamp]
        let file' : Option (List LogRow) :=
          match file with
          | none => some [headerRow, row]
          | some rows => some (rows ++ [row])
        ⟨.ok ⟨t ++ (if wasTruncated then TRUNC_MARKER else []),
              summary, sentiment, timestamp⟩, file', [sent1, sent2]⟩

/-! ## The `/api/analyze` route pipeline (app.py lines 138-148)

The route reads the JSON field (`data.get("transcript") or ""`), strips
it, admits through the rate limiter keyed by the client address, and
runs `analyze_transcript`; any exception is turned into an error
response. -/

inductive ApiErr where
  | rateLimited
  | analyze (e : AnalyzeErr)
deriving DecidableEq

structure ApiOut where
  result : Except ApiErr AnalyzeOk
  rateState : List Char → List ℚ
  file : Option (List LogRow)
  prompts : List (List Char)

def api_analyze (maxChars maxN : Nat) (window : ℚ)
    (groq : List Char → Except PyErr (List Char)) (timestamp : List Char)
    (key : List Char) (now : ℚ) (st : List Char → List ℚ)
    (file : Option (List LogRow)) (rawTranscript : Option (List Char)) : ApiOut :=
  let transcript := pyStrip (rawTranscript.getD [])
  let r := rate_limit_or_raise maxN window key now st
  if r.1 then
    let out := analyze_transcript maxChars groq timestamp file transcript
    ⟨(match out.result with
      | .ok a => .ok a
      | .error e => .error (.analyze e)), r.2, out.file, out.prompts⟩
  else ⟨.error .rateLimited, r.2, file, []⟩

/-! ## Lemmas about `call_groq` -/

/-- The retry loop consults only attempts `i, …, i+remaining-1`. -/
theorem call_groq_go_agree (net net' : Nat → NetOutcome) :
    ∀ remaining i last, (∀ j, j < remaining → net (i + j) = net' (i + j)) →
      call_groq_go net remaining i last = call_groq_go net' remaining i last := by
  intro remaining
  induction remaining with
  | zero => intro i last _; rfl
  | succ rem ih =>
    intro i last h
    have h0 : net' i = net i := by simpa using (h 0 (Nat.succ_pos rem)).symm
    cases hni : net i with
    | reqErr m =>
      have hrec : call_groq_go net rem (i + 1) m = call_groq_go net' rem (i + 1) m := by
        refine ih (i + 1) m ?_
        intro j hj
        have := h (j + 1) (by omega)
        simpa [Nat.add_assoc, Nat.add_comm 1 j] using this
      simp only [call_groq_go, h0, hni, hrec]
    | ok c => cases c <;> simp only [call_groq_go, h0, hni]

/-- Claim C1, counterexample: with a key configured and every attempt
failing with a `RequestException`, `call_groq` performs FOUR sleeps,
`[0.5, 1, 2, 4]` seconds — the fourth occurring after the final failed
attempt and before the wrapping error is raised.  The claim states that a
sleep occurs only between attempts (never after the final failed
attempt), which would allow at most 3 sleeps. -/
theorem c1_counterexample :
    (call_groq (some "k".toList) (fun _ => .reqErr "boom".toList)).2
        = [1/2, 1, 2, 4] ∧
      ((call_groq (some "k".toList) (fun _ => .reqErr "boom".toList)).2).length ≠ 3 ∧
      (call_groq (some "k".toList) (fun _ => .reqErr "boom".toList)).1
        = .error (.runtimeError (retriesMsgPre ++ "boom".toList)) := by
  refine ⟨?_, ?_, ?_⟩ <;> (simp [call_groq, hasKey, call_groq_go]; try norm_num)

/-- Claim C1 (amended): every invocation of `call_groq` makes at most 4
attempts (the result depends only on attempts 0-3); a sleep of
`(2^i)*0.5` seconds occurs after EVERY failed attempt `i` — including
the final one — and never before the first attempt; so a call that
fails 3 times then succeeds sleeps exactly `0.5+1+2 = 3.5` seconds and
returns the successful (stripped) content, while a call whose 4 attempts
all fail first sleeps `0.5+1+2+4` seconds in total and then raises an
error wrapping the last underlying error. -/
theorem c1_backoff_amended (key : Option (List Char)) (hkey : hasKey key = true)
    (net : Nat → NetOutcome) :
    (∀ net' : Nat → NetOutcome, (∀ j, j < 4 → net j = net' j) →
        call_groq key net = call_groq key net') ∧
      (∀ e0 e1 e2 c, net 0 = .reqErr e0 → net 1 = .reqErr e1 → net 2 = .reqErr e2 →
        net 3 = .ok (some c) →
        call_groq key net = (.ok (pyStrip c), [1/2, 1, 2]) ∧
          ([1/2, 1, 2] : List ℚ).sum = 35/10) ∧
      (∀ e0 e1 e2 e3, net 0 = .reqErr e0 → net 1 = .reqErr e1 → net 2 = .reqErr e2 →
        net 3 = .reqErr e3 →
        call_groq key net
          = (.error (.runtimeError (retriesMsgPre ++ e3)), [1/2, 1, 2, 4])) := by
  refine ⟨?_, ?_, ?_⟩
  · intro net' h
    simp only [call_groq, hkey, if_true]
    exact call_groq_go_agree net net' 4 0 _ (by simpa using h)
  · intro e0 e1 e2 c h0 h1 h2 h3
    constructor
    · simp [call_groq, hkey, call_groq_go, h0, h1, h2, h3] <;> norm_num
    · simp [List.sum_cons, List.sum_nil]; norm_num
  · intro e0 e1 e2 e3 h0 h1 h2 h3
    simp [call_groq, hkey, call_groq_go, h0, h1, h2, h3] <;> norm_num

/-- Witness for C1's amended theorem at a concrete network. -/
theorem c1_backoff_amended_witness :
    call_groq (some "k".toList)
        (fun i => if i < 3 then .reqErr "e".toList else .ok (some " hi ".toList))
      = (.ok "hi".toList, [1/2, 1, 2]) := by
  have h := (c1_backoff_amended (some "k".toList) (by decide)
    (fun i => if i < 3 then .reqErr "e".toList else .ok (some " hi ".toList))).2.1
    "e".toList "e".toList "e".toList " hi ".toList rfl rfl rfl rfl
  simpa [pyStrip] using h.1

/-- Claim C8: with no API key configured (unset or empty), `call_groq`
fails immediately with the missing-credential `RuntimeError`; the result
never depends on the network (no request is attempted), and the failure
happens on every call while the key is absent. -/
theorem c8_missing_key (key : Option (List Char)) (hkey : hasKey key = false)
    (net : Nat → NetOutcome) :
    call_groq key net = (.error (.runtimeError missingKeyMsg), []) ∧
      ∀ net' : Nat → NetOutcome, call_groq key net = call_groq key net' := by
  constructor
  · simp [call_groq, hkey]
  · intro net'; simp [call_groq, hkey]

/-- Witness for C8 at a concrete call. -/
theorem c8_missing_key_witness :
    call_groq none (fun _ => .ok (some "content".toList))
      = (.error (.runtimeError missingKeyMsg), []) :=
  (c8_missing_key none rfl (fun _ => .ok (some "content".toList))).1

/-- Helper for C9: explicit result of `call_groq` when attempts before `i`
fail with `RequestException`s and attempt `i` returns a malformed body. -/
theorem call_groq_shape_eq (key : Option (List Char)) (hkey : hasKey key = true)
    (net : Nat → NetOutcome) (i : Nat) (hi : i < 4)
    (hfail : ∀ j, j < i → ∃ m, net j = .reqErr m) (hshape : net i = .ok none) :
    call_groq key net
      = (.error .shapeError, (List.range i).map (fun j => (2 : ℚ) ^ j / 2)) := by
  interval_cases i
  · simp [call_groq, hkey, call_groq_go, hshape] <;> norm_num
  · obtain ⟨m0, h0⟩ := hfail 0 (by norm_num)
    simp [call_groq, hkey, call_groq_go, h0, hshape, List.range_succ] <;> norm_num
  · obtain ⟨m0, h0⟩ := hfail 0 (by norm_num)
    obtain ⟨m1, h1⟩ := hfail 1 (by norm_num)
    simp [call_groq, hkey, call_groq_go, h0, h1, hshape, List.range_succ] <;> norm_num
  · obtain ⟨m0, h0⟩ := hfail 0 (by norm_num)
    obtain ⟨m1, h1⟩ := hfail 1 (by norm_num)
    obtain ⟨m2, h2⟩ := hfail 2 (by norm_num)
    simp [call_groq, hkey, call_groq_go, h0, h1, h2, hshape, List.range_succ] <;> norm_num

/-- Claim C9: only `requests.RequestException`s consume the 4-attempt
budget; a 2xx response whose body lacks the chat-completion shape makes
`call_groq` raise immediately on the attempt where it occurs — no
further attempts are consulted, no backoff sleep is added for that
attempt (the sleep list has exactly the `i` entries of the preceding
failed attempts), and the escaped error is not the wrapped
failed-after-retries `RuntimeError`. -/
theorem c9_malformed_body (key : Option (List Char)) (hkey : hasKey key = true)
    (net : Nat → NetOutcome) (i : Nat) (hi : i < 4)
    (hfail : ∀ j, j < i → ∃ m, net j = .reqErr m) (hshape : net i = .ok none) :
    (call_groq key net).1 = .error .shapeError ∧
      (call_groq key net).2 = (List.range i).map (fun j => (2 : ℚ) ^ j / 2) ∧
      (∀ msg, (call_groq key net).1 ≠ .error (.runtimeError msg)) ∧
      ∀ net' : Nat → NetOutcome, (∀ j, j ≤ i → net j = net' j) →
        call_groq key net = call_groq key net' := by
  have main := call_groq_shape_eq key hkey net i hi hfail hshape
  refine ⟨by rw [main], by rw [main],
    by rw [main]; intro msg h; exact PyErr.noConfusion (Except.error.inj h), ?_⟩
  intro net' hagree
  have main' : call_groq key net'
      = (.error .shapeError, (List.range i).map (fun j => (2 : ℚ) ^ j / 2)) := by
    refine call_groq_shape_eq key hkey net' i hi ?_ ?_
    · intro j hj
      obtain ⟨m, hm⟩ := hfail j hj
      exact ⟨m, by rw [← hagree j (Nat.le_of_lt hj)]; exact hm⟩
    · rw [← hagree i (Nat.le_refl i)]; exact hshape
  rw [main, main']

/-- Witness for C9 at a concrete network (shape failure on attempt 2). -/
theorem c9_malformed_body_witness :
    (call_groq (some "k".toList)
        (fun j => if j < 2 then .reqErr "e".toList else .ok none)).1
      = .error .shapeError ∧
    (call_groq (some "k".toList)
        (fun j => if j < 2 then .reqErr "e".toList else .ok none)).2
      = [1/2, 1] := by
  have h := c9_malformed_body (some "k".toList) rfl
    (fun j => if j < 2 then .reqErr "e".toList else .ok none) 2 (by norm_num)
    (fun j hj => ⟨"e".toList, by interval_cases j <;> rfl⟩) rfl
  refine ⟨h.1, ?_⟩
  rw [h.2.1]
  simp [List.range_succ]

/-! ## Lemmas about `rate_limit_or_raise` -/

/-- Run `rate_limit_or_raise` once per timestamp in `nows`, in order,
threading the bucket state; returns the final state and the list of
admission results. -/
def rate_limit_seq (maxN : Nat) (window : ℚ) (key : List Char) :
    List ℚ → (List Char → List ℚ) → (List Char → List ℚ) × List Bool
  | [], st => (st, [])
  | now :: rest, st =>
    let r := rate_limit_or_raise maxN window key now st
    let tail := rate_limit_seq maxN window key rest r.2
    (tail.1, r.1 :: tail.2)

/-- If every timestamp already in the bucket and every timestamp of the
run survives pruning at every call of the run, and the bucket has room
for the whole run, then every call admits and the final bucket is the
old one with all the run's timestamps appended. -/
theorem rate_limit_seq_admits (maxN : Nat) (window : ℚ) (key : List Char) :
    ∀ (nows : List ℚ) (st : List Char → List ℚ),
      (∀ x, (x ∈ st key ∨ x ∈ nows) → ∀ n ∈ nows, n - window ≤ x) →
      (st key).length + nows.length ≤ maxN →
      (rate_limit_seq maxN window key nows st).2 = List.replicate nows.length true ∧
        (rate_limit_seq maxN window key nows st).1 key = st key ++ nows := by
  intro nows
  induction nows with
  | nil => intro st _ _; exact ⟨rfl, by simp [rate_limit_seq]⟩
  | cons now rest ih =>
    intro st hwin hlen
    have hkeep : (st key).filter (fun ts => decide (now - window ≤ ts)) = st key := by
      refine List.filter_eq_self.mpr ?_
      intro x hx
      simpa using hwin x (Or.inl hx) now (List.mem_cons_self now rest)
    have hroom : ¬ maxN ≤ (st key).length := by
      simp at hlen; omega
    have hstep : rate_limit_or_raise maxN window key now st
        = (true, Function.update st key (st key ++ [now])) := by
      simp only [rate_limit_or_raise, hkeep, if_neg hroom]
    have hside1 : ∀ x, (x ∈ (Function.update st key (st key ++ [now])) key ∨ x ∈ rest) →
        ∀ n ∈ rest, n - window ≤ x := by
      intro x hx n hn
      rcases hx with hx | hx
      · rw [Function.update_same] at hx
        rcases List.mem_append.mp hx with hx | hx
        · exact hwin x (Or.inl hx) n (List.mem_cons_of_mem now hn)
        · have hxn : x = now := by simpa using hx
          subst hxn
          exact hwin x (Or.inr (List.mem_cons_self x rest)) n
            (List.mem_cons_of_mem x hn)
      · exact hwin x (Or.inr (List.mem_cons_of_mem now hx)) n (List.mem_cons_of_mem now hn)
    have hside2 : ((Function.update st key (st key ++ [now])) key).length + rest.length
        ≤ maxN := by
      rw [Function.update_same]
      simp at hlen ⊢
      omega
    have hrec := ih (Function.update st key (st key ++ [now])) hside1 hside2
    refine ⟨?_, ?_⟩
    · simp only [rate_limit_seq, hstep, hrec.1, List.length_cons, List.replicate]
    · simp only [rate_limit_seq, hstep]
      rw [hrec.2]
      simp [Function.update_same, List.append_assoc]

/-- Claim C2: the limiter prunes, then fails without recording iff the
surviving count is at or above the max, else records `now`; and the
scenario: with window `W` and max `M > 0`, `M` admissions at times all
within `[u - W, u]` all succeed from a fresh state; an `(M+1)`-th call at
time `u` then fails; and a later call more than `W` after `u` succeeds
again. -/
theorem c2_rate_limiter (M : Nat) (W : ℚ) (key : List Char) (nows : List ℚ) (u u' : ℚ)
    (hM : 0 < M) (hlen : nows.length = M)
    (hwin : ∀ t ∈ nows, u - W ≤ t ∧ t ≤ u) (hu' : u + W < u') :
    -- the per-call contract (prune first, then decide):
    (∀ (st : List Char → List ℚ) (now : ℚ),
      (M ≤ ((st key).filter (fun ts => decide (now - W ≤ ts))).length →
        rate_limit_or_raise M W key now st
          = (false, Function.update st key
              ((st key).filter (fun ts => decide (now - W ≤ ts))))) ∧
      (((st key).filter (fun ts => decide (now - W ≤ ts))).length < M →
        rate_limit_or_raise M W key now st
          = (true, Function.update st key
              ((st key).filter (fun ts => decide (now - W ≤ ts)) ++ [now])))) ∧
    -- the scenario, from the fresh (empty) state:
    ((rate_limit_seq M W key nows (fun _ => [])).2 = List.replicate M true ∧
      (rate_limit_or_raise M W key u ((rate_limit_seq M W key nows (fun _ => [])).1)).1
        = false ∧
      (rate_limit_or_raise M W key u'
        ((rate_limit_or_raise M W key u
          ((rate_limit_seq M W key nows (fun _ => [])).1)).2)).1 = true) := by
  have hseq := rate_limit_seq_admits M W key nows (fun _ => [])
    (by
      intro x hx n hn
      rcases hx with hx | hx
      · simp at hx
      · calc n - W ≤ u - W := by have := (hwin n hn).2; linarith
          _ ≤ x := (hwin x hx).1)
    (by simp [hlen])
  have hstate : (rate_limit_seq M W key nows (fun _ => [])).1 key = nows := by
    rw [hseq.2]; simp
  refine ⟨?_, ?_, ?_, ?_⟩
  · intro st now
    constructor
    · intro h; simp only [rate_limit_or_raise, if_pos h]
    · intro h; simp only [rate_limit_or_raise, if_neg (Nat.not_le.mpr h)]
  · rw [hseq.1, hlen]
  · -- the (M+1)-th call at `u` finds all M timestamps inside the window
    have hkeep : nows.filter (fun ts => decide (u - W ≤ ts)) = nows :=
      List.filter_eq_self.mpr (fun x hx => by simpa using (hwin x hx).1)
    simp only [rate_limit_or_raise, hstate, hkeep, hlen, le_refl, if_pos]
  · -- after more than W seconds, everything is pruned
    have hkeep : nows.filter (fun ts => decide (u - W ≤ ts)) = nows :=
      List.filter_eq_self.mpr (fun x hx => by simpa using (hwin x hx).1)
    set st2 := (rate_limit_or_raise M W key u
      ((rate_limit_seq M W key nows (fun _ => [])).1)).2 with hst2
    have hfail : st2 key = nows := by
      rw [hst2]
      simp only [rate_limit_or_raise, hstate, hkeep, hlen, le_refl, if_pos,
        Function.update_same]
    have hdrop : nows.filter (fun ts => decide (u' - W ≤ ts)) = [] := by
      refine List.filter_eq_nil_iff.mpr ?_
      intro x hx
      have hxu : x ≤ u := (hwin x hx).2
      simp only [decide_eq_true_eq]
      intro hcon
      linarith
    show (rate_limit_or_raise M W key u' st2).1 = true
    simp only [rate_limit_or_raise, hfail, hdrop, List.length_nil]
    rw [if_neg (by omega)]

/-- Witness for C2 at `M = 2`, `W = 10`, admissions at times 0 and 1,
the third call at time 2, the recovery call at time 13. -/
theorem c2_rate_limiter_witness :
    (rate_limit_seq 2 10 "c".toList [0, 1] (fun _ => [])).2 = [true, true] ∧
      (rate_limit_or_raise 2 10 "c".toList 2
        ((rate_limit_seq 2 10 "c".toList [0, 1] (fun _ => [])).1)).1 = false ∧
      (rate_limit_or_raise 2 10 "c".toList 13
        ((rate_limit_or_raise 2 10 "c".toList 2
          ((rate_limit_seq 2 10 "c".toList [0, 1] (fun _ => [])).1)).2)).1 = true := by
  have h := c2_rate_limiter 2 10 "c".toList [0, 1] 2 13 (by norm_num) rfl
    (by intro t ht; simp at ht; rcases ht with h | h <;> subst h <;> norm_num)
    (by norm_num)
  exact h.2

/-- Claim C10: after any call of `rate_limit_or_raise` on a state whose
bucket for the key respects the size bound, the stored list for that key
contains only timestamps at least `now - window` and has length at most
the max; and a rejected call still writes back the pruned list (appending
nothing). -/
theorem c10_rate_limit_invariant (M : Nat) (W : ℚ) (key : List Char) (now : ℚ)
    (st : List Char → List ℚ) (hW : 0 ≤ W) (hpre : (st key).length ≤ M) :
    (∀ t ∈ (rate_limit_or_raise M W key now st).2 key, now - W ≤ t) ∧
      ((rate_limit_or_raise M W key now st).2 key).length ≤ M ∧
      ((rate_limit_or_raise M W key now st).1 = false →
        (rate_limit_or_raise M W key now st).2 key
          = (st key).filter (fun ts => decide (now - W ≤ ts))) := by
  by_cases h : M ≤ ((st key).filter (fun ts => decide (now - W ≤ ts))).length
  · simp only [rate_limit_or_raise, if_pos h, Function.update_same]
    refine ⟨?_, ?_, by first | trivial | exact fun _ => rfl⟩
    · intro t ht
      have := List.of_mem_filter ht
      simpa using this
    · calc ((st key).filter _).length ≤ (st key).length := List.length_filter_le _ _
        _ ≤ M := hpre
  · simp only [rate_limit_or_raise, if_neg h, Function.update_same]
    refine ⟨?_, ?_, by first | trivial | (intro hcon; exact absurd hcon (by decide))⟩
    · intro t ht
      rcases List.mem_append.mp ht with ht | ht
      · have := List.of_mem_filter ht
        simpa using this
      · have : t = now := by simpa using ht
        subst this
        linarith
    · rw [List.length_append, List.length_singleton]
      omega

/-- Witness for C10 at a concrete rejected call. -/
theorem c10_rate_limit_invariant_witness :
    (∀ t ∈ (rate_limit_or_raise 1 10 "c".toList 20 (fun _ => [15])).2 "c".toList,
        (20 : ℚ) - 10 ≤ t) ∧
      ((rate_limit_or_raise 1 10 "c".toList 20 (fun _ => [15])).2 "c".toList).length ≤ 1 ∧
      ((rate_limit_or_raise 1 10 "c".toList 20 (fun _ => [15])).1 = false →
        (rate_limit_or_raise 1 10 "c".toList 20 (fun _ => [15])).2 "c".toList
          = ((fun _ => [15]) "c".toList).filter
              (fun ts => decide ((20 : ℚ) - 10 ≤ ts))) :=
  c10_rate_limit_invariant 1 10 "c".toList 20 (fun _ => [15]) (by norm_num) (by simp)

/-! ## Lemmas about `analyze_transcript` -/

/-- The prompt actually sent for a given fixed prompt text and (size
limited) transcript `t`: the template is built from the original `t` and
the redacted copy is substituted for every occurrence of `t`. -/
def sentPrompt (pre t : List Char) : List Char := pyReplace (pre ++ t) t (redact_pii t)

/-- Exhaustive description of a run of `analyze_transcript`. -/
theorem analyze_transcript_cases (maxChars : Nat)
    (groq : List Char → Except PyErr (List Char)) (timestamp : List Char)
    (file : Option (List LogRow)) (s : List Char) :
    (s.isEmpty = true ∧ analyze_transcript maxChars groq timestamp file s
        = ⟨.error .emptyInput, file, []⟩) ∨
    (s.isEmpty = false ∧
      ((∃ e, groq (sentPrompt summaryPrefix (within_size_limit maxChars s)) = .error e ∧
          analyze_transcript maxChars groq timestamp file s
            = ⟨.error (.groq e), file,
                [sentPrompt summaryPrefix (within_size_limit maxChars s)]⟩) ∨
        (∃ sm e, groq (sentPrompt summaryPrefix (within_size_limit maxChars s)) = .ok sm ∧
          groq (sentPrompt sentimentPrefix (within_size_limit maxChars s)) = .error e ∧
          analyze_transcript maxChars groq timestamp file s
            = ⟨.error (.groq e), file,
                [sentPrompt summaryPrefix (within_size_limit maxChars s),
                 sentPrompt sentimentPrefix (within_size_limit maxChars s)]⟩) ∨
        (∃ sm se, groq (sentPrompt summaryPrefix (within_size_limit maxChars s)) = .ok sm ∧
          groq (sentPrompt sentimentPrefix (within_size_limit maxChars s)) = .ok se ∧
          analyze_transcript maxChars groq timestamp file s
            = ⟨.ok ⟨within_size_limit maxChars s ++
                  (if s.length != (within_size_limit maxChars s).length
                   then TRUNC_MARKER else []), sm, se, timestamp⟩,
                some (file.getD [headerRow]
                  ++ [[within_size_limit maxChars s, sm, se, timestamp]]),
                [sentPrompt summaryPrefix (within_size_limit maxChars s),
                 sentPrompt sentimentPrefix (within_size_limit maxChars s)]⟩))) := by
  by_cases hempty : s.isEmpty
  · exact Or.inl ⟨hempty, by simp [analyze_transcript, hempty]⟩
  · refine Or.inr ⟨by simpa using hempty, ?_⟩
    cases hg1 : groq (sentPrompt summaryPrefix (within_size_limit maxChars s)) with
    | error e =>
      refine Or.inl ⟨e, rfl, ?_⟩
      simp only [analyze_transcript, hempty, if_false, Bool.false_eq_true]
      rw [show pyReplace (summaryPrefix ++ within_size_limit maxChars s)
          (within_size_limit maxChars s) (redact_pii (within_size_limit maxChars s))
          = sentPrompt summaryPrefix (within_size_limit maxChars s) from rfl, hg1]
    | ok sm =>
      cases hg2 : groq (sentPrompt sentimentPrefix (within_size_limit maxChars s)) with
      | error e =>
        refine Or.inr (Or.inl ⟨sm, e, rfl, rfl, ?_⟩)
        simp only [analyze_transcript, hempty, if_false, Bool.false_eq_true]
        rw [show pyReplace (summaryPrefix ++ within_size_limit maxChars s)
            (within_size_limit maxChars s) (redact_pii (within_size_limit maxChars s))
            = sentPrompt summaryPrefix (within_size_limit maxChars s) from rfl, hg1]
        rw [show pyReplace (sentimentPrefix ++ within_size_limit maxChars s)
            (within_size_limit maxChars s) (redact_pii (within_size_limit maxChars s))
            = sentPrompt sentimentPrefix (within_size_limit maxChars s) from rfl, hg2]
      | ok se =>
        refine Or.inr (Or.inr ⟨sm, se, rfl, rfl, ?_⟩)
        simp only [analyze_transcript, hempty, if_false, Bool.false_eq_true]
        rw [show pyReplace (summaryPrefix ++ within_size_limit maxChars s)
            (within_size_limit maxChars s) (redact_pii (within_size_limit maxChars s))
            = sentPrompt summaryPrefix (within_size_limit maxChars s) from rfl, hg1]
        rw [show pyReplace (sentimentPrefix ++ within_size_limit maxChars s)
            (within_size_limit maxChars s) (redact_pii (within_size_limit maxChars s))
            = sentPrompt sentimentPrefix (within_size_limit maxChars s) from rfl, hg2]
        cases file with
        | none => rfl
        | some rows => rfl

/-- Helper: what a successful run of `analyze_transcript` guarantees. -/
theorem analyze_ok_spec (maxChars : Nat)
    (groq : List Char → Except PyErr (List Char)) (timestamp : List Char)
    (file : Option (List LogRow)) (s : List Char) (r : AnalyzeOk)
    (h : (analyze_transcript maxChars groq timestamp file s).result = .ok r) :
    r.transcript = within_size_limit maxChars s ++
        (if s.length != (within_size_limit maxChars s).length then TRUNC_MARKER else []) ∧
      r.timestamp = timestamp ∧
      (analyze_transcript maxChars groq timestamp file s).file
        = some (file.getD [headerRow]
            ++ [[within_size_limit maxChars s, r.summary, r.sentiment, timestamp]]) ∧
      (analyze_transcript maxChars groq timestamp file s).prompts
        = [sentPrompt summaryPrefix (within_size_limit maxChars s),
           sentPrompt sentimentPrefix (within_size_limit maxChars s)] ∧
      s.isEmpty = false := by
  rcases analyze_transcript_cases maxChars groq timestamp file s with ⟨he, heq⟩ |
    ⟨he, ⟨e, hg1, heq⟩ | ⟨sm, e, hg1, hg2, heq⟩ | ⟨sm, se, hg1, hg2, heq⟩⟩
  · rw [heq] at h; exact absurd h (by simp)
  · rw [heq] at h; exact absurd h (by simp)
  · rw [heq] at h; exact absurd h (by simp)
  · rw [heq] at h
    have hr : r = ⟨within_size_limit maxChars s ++
        (if s.length != (within_size_limit maxChars s).length then TRUNC_MARKER else []),
        sm, se, timestamp⟩ := by
      have := h
      simp only [Except.ok.injEq] at this
      exact this.symm
    rw [heq, hr]
    exact ⟨rfl, rfl, rfl, rfl, he⟩

/-- Claim C4: any failure of `analyze_transcript` (empty-input rejection,
the summarization call, or the sentiment call) leaves the CSV file
untouched; in particular if the summarization call succeeds and the
sentiment call fails, nothing is written; and exactly one row is
appended when the whole analysis completes. -/
theorem c4_atomicity (maxChars : Nat)
    (groq : List Char → Except PyErr (List Char)) (timestamp : List Char)
    (file : Option (List LogRow)) (s : List Char) :
    (∀ e, (analyze_transcript maxChars groq timestamp file s).result = .error e →
      (analyze_transcript maxChars groq timestamp file s).file = file) ∧
    (∀ r, (analyze_transcript maxChars groq timestamp file s).result = .ok r →
      (analyze_transcript maxChars groq timestamp file s).file
        = some (file.getD [headerRow]
            ++ [[within_size_limit maxChars s, r.summary, r.sentiment, timestamp]])) ∧
    (∀ sm e, s.isEmpty = false →
      groq (sentPrompt summaryPrefix (within_size_limit maxChars s)) = .ok sm →
      groq (sentPrompt sentimentPrefix (within_size_limit maxChars s)) = .error e →
      (analyze_transcript maxChars groq timestamp file s).result = .error (.groq e) ∧
        (analyze_transcript maxChars groq timestamp file s).file = file) := by
  refine ⟨?_, ?_, ?_⟩
  · intro e h
    rcases analyze_transcript_cases maxChars groq timestamp file s with ⟨_, heq⟩ |
      ⟨_, ⟨e', _, heq⟩ | ⟨sm, e', _, _, heq⟩ | ⟨sm, se, _, _, heq⟩⟩
    · rw [heq]
    · rw [heq]
    · rw [heq]
    · rw [heq] at h; exact absurd h (by simp)
  · intro r h
    exact (analyze_ok_spec maxChars groq timestamp file s r h).2.2.1
  · intro sm e hne hg1 hg2
    rcases analyze_transcript_cases maxChars groq timestamp file s with ⟨he, heq⟩ |
      ⟨_, ⟨e', hg1', heq⟩ | ⟨sm', e', hg1', hg2', heq⟩ | ⟨sm', se', hg1', hg2', heq⟩⟩
    · rw [he] at hne; cases hne
    · rw [hg1'] at hg1; exact absurd hg1 (by simp)
    · have : e' = e := by
        rw [hg2'] at hg2; exact (Except.error.inj hg2)
      subst this
      exact ⟨by rw [heq], by rw [heq]⟩
    · rw [hg2'] at hg2; exact absurd hg2 (by simp)

/-- Witness for C4: summarization succeeds, sentiment fails, no write. -/
theorem c4_atomicity_witness :
    (analyze_transcript 100
        (fun p => if p.headD ' ' = 'S' then .ok "S".toList
                  else .error (.runtimeError "boom".toList))
        "ts".toList (some [headerRow]) "hi".toList).result
      = .error (.groq (.runtimeError "boom".toList)) ∧
    (analyze_transcript 100
        (fun p => if p.headD ' ' = 'S' then .ok "S".toList
                  else .error (.runtimeError "boom".toList))
        "ts".toList (some [headerRow]) "hi".toList).file
      = some [headerRow] := by
  exact (c4_atomicity 100 _ "ts".toList (some [headerRow]) "hi".toList).2.2
    "S".toList (.runtimeError "boom".toList) rfl rfl rfl

/-- Claim C7: size limiting leaves an input within the ceiling unchanged
and appends no truncation marker to the returned transcript; an input
longer than the ceiling is limited to exactly the ceiling length, the
returned result's transcript field ends with the `\n[TRUNCATED]` marker,
and the persisted row carries the truncated text without the marker. -/
theorem c7_size_limit (maxChars : Nat) (s : List Char)
    (groq : List Char → Except PyErr (List Char)) (timestamp : List Char)
    (file : Option (List LogRow)) :
    (s.length ≤ maxChars →
      within_size_limit maxChars s = s ∧
      ∀ r, (analyze_transcript maxChars groq timestamp file s).result = .ok r →
        r.transcript = s) ∧
    (maxChars < s.length →
      (within_size_limit maxChars s).length = maxChars ∧
      ∀ r, (analyze_transcript maxChars groq timestamp file s).result = .ok r →
        r.transcript = s.take maxChars ++ TRUNC_MARKER ∧
        TRUNC_MARKER <:+ r.transcript ∧
        (analyze_transcript maxChars groq timestamp file s).file
          = some (file.getD [headerRow]
              ++ [[s.take maxChars, r.summary, r.sentiment, timestamp]])) := by
  constructor
  · intro hle
    have hid : within_size_limit maxChars s = s := by
      simp [within_size_limit, hle]
    refine ⟨hid, ?_⟩
    intro r h
    have hspec := analyze_ok_spec maxChars groq timestamp file s r h
    rw [hspec.1, hid]
    simp
  · intro hgt
    have htake : within_size_limit maxChars s = s.take maxChars := by
      simp [within_size_limit, Nat.not_le.mpr hgt]
    have hlen : (within_size_limit maxChars s).length = maxChars := by
      rw [htake, List.length_take]
      omega
    refine ⟨hlen, ?_⟩
    intro r h
    have hspec := analyze_ok_spec maxChars groq timestamp file s r h
    have hne : (s.length != (within_size_limit maxChars s).length) = true := by
      rw [hlen]
      simp only [bne_iff_ne, ne_eq]
      omega
    have htr : r.transcript = s.take maxChars ++ TRUNC_MARKER := by
      rw [hspec.1, hne, htake]
      simp
    refine ⟨htr, by rw [htr]; exact List.suffix_append _ _, ?_⟩
    rw [hspec.2.2.1, htake]

/-- Witness for C7 at ceiling 3 and input `"abcde"`. -/
theorem c7_size_limit_witness :
    (within_size_limit 3 "abcde".toList).length = 3 ∧
      ("abcde".toList.length ≤ 3 → False) ∧
      (analyze_transcript 3 (fun _ => .ok "S".toList) "ts".toList none
          "abcde".toList).result
        = .ok ⟨"abc".toList ++ TRUNC_MARKER, "S".toList, "S".toList, "ts".toList⟩ ∧
      TRUNC_MARKER <:+ ("abc".toList ++ TRUNC_MARKER) := by
  have hok : (analyze_transcript 3 (fun _ => .ok "S".toList) "ts".toList none
      "abcde".toList).result
      = .ok ⟨"abc".toList ++ TRUNC_MARKER, "S".toList, "S".toList, "ts".toList⟩ := by
    rfl
  have h := (c7_size_limit 3 "abcde".toList (fun _ => .ok "S".toList) "ts".toList none).2
    (by norm_num)
  have h2 := h.2 ⟨"abc".toList ++ TRUNC_MARKER, "S".toList, "S".toList, "ts".toList⟩ hok
  exact ⟨h.1, by intro hcon; simp at hcon, hok, h2.2.1⟩

/-- Claim C3: a transcript that is blank after trimming (empty or
whitespace-only) is rejected by the analysis pipeline with the
empty-input error before any outbound call is recorded and before any
log write; the `/api/analyze` pipeline trims the submitted field
(app.py line 141) and `analyze_transcript` rejects the resulting empty
string (lines 360-361). -/
theorem c3_empty_input (maxChars maxN : Nat) (window : ℚ)
    (groq : List Char → Except PyErr (List Char)) (timestamp : List Char)
    (key : List Char) (now : ℚ) (st : List Char → List ℚ)
    (file : Option (List LogRow)) (raw : Option (List Char))
    (hblank : pyStrip (raw.getD []) = [])
    (hadm : (rate_limit_or_raise maxN window key now st).1 = true) :
    (api_analyze maxChars maxN window groq timestamp key now st file raw).result
        = .error (.analyze .emptyInput) ∧
      (api_analyze maxChars maxN window groq timestamp key now st file raw).file = file ∧
      (api_analyze maxChars maxN window groq timestamp key now st file raw).prompts = [] ∧
      analyze_transcript maxChars groq timestamp file (pyStrip (raw.getD []))
        = ⟨.error .emptyInput, file, []⟩ := by
  have hanalyze : analyze_transcript maxChars groq timestamp file (pyStrip (raw.getD []))
      = ⟨.error .emptyInput, file, []⟩ := by
    rw [hblank]
    simp [analyze_transcript]
  refine ⟨?_, ?_, ?_, hanalyze⟩ <;>
    simp only [api_analyze, hadm, if_true, hanalyze]

/-- Witness for C3 at a whitespace-only input. -/
theorem c3_empty_input_witness :
    (api_analyze 100 5 300 (fun _ => .ok "S".toList) "ts".toList "c".toList 0
        (fun _ => []) (some [headerRow]) (some "  \n ".toList)).result
      = .error (.analyze .emptyInput) ∧
    (api_analyze 100 5 300 (fun _ => .ok "S".toList) "ts".toList "c".toList 0
        (fun _ => []) (some [headerRow]) (some "  \n ".toList)).prompts = [] := by
  have h := c3_empty_input 100 5 300 (fun _ => .ok "S".toList) "ts".toList "c".toList 0
    (fun _ => []) (some [headerRow]) (some "  \n ".toList) (by rfl) (by rfl)
  exact ⟨h.1, h.2.2.1⟩

/-! ## Lemmas about `countRun` -/

theorem countRun_le (p : Char → Bool) : ∀ s : List Char, countRun p s ≤ s.length := by
  intro s
  induction s with
  | nil => simp [countRun]
  | cons c rest ih =>
    simp only [countRun, List.length_cons]
    split <;> omega

theorem countRun_take_prop (p : Char → Bool) :
    ∀ (s : List Char) (m : Nat), m ≤ countRun p s → ∀ c ∈ s.take m, p c := by
  intro s
  induction s with
  | nil => intro m _ c hc; simp at hc
  | cons a rest ih =>
    intro m hm c hc
    cases m with
    | zero => simp at hc
    | succ m' =>
      simp only [countRun] at hm
      by_cases hp : p a
      · rw [if_pos hp] at hm
        simp only [List.take_succ_cons, List.mem_cons] at hc
        rcases hc with hc | hc
        · subst hc; exact hp
        · exact ih m' (by omega) c hc
      · rw [if_neg hp] at hm; omega

theorem countRun_getD_stop (p : Char → Bool) :
    ∀ s : List Char, countRun p s < s.length → p (s.getD (countRun p s) ' ') = false := by
  intro s
  induction s with
  | nil => simp [countRun]
  | cons a rest ih =>
    intro h
    simp only [countRun] at h ⊢
    by_cases hp : p a
    · rw [if_pos hp] at h ⊢
      simp only [List.length_cons] at h
      simpa using ih (by omega)
    · rw [if_neg hp]
      simpa using hp

theorem countRun_append_left (p : Char → Bool) :
    ∀ (x y : List Char), countRun p x < x.length → countRun p (x ++ y) = countRun p x := by
  intro x
  induction x with
  | nil => simp
  | cons a rest ih =>
    intro y h
    by_cases hp : p a
    · have h' : countRun p rest < rest.length := by
        simp only [countRun, if_pos hp, List.length_cons] at h
        omega
      show countRun p (a :: (rest ++ y)) = countRun p (a :: rest)
      simp only [countRun, if_pos hp, ih y h']
    · show countRun p (a :: (rest ++ y)) = countRun p (a :: rest)
      simp only [countRun, if_neg hp]

theorem countRun_le_append (p : Char → Bool) :
    ∀ (x y : List Char), countRun p x ≤ countRun p (x ++ y) := by
  intro x
  induction x with
  | nil => simp [countRun]
  | cons a rest ih =>
    intro y
    show countRun p (a :: rest) ≤ countRun p (a :: (rest ++ y))
    by_cases hp : p a
    · simp only [countRun, if_pos hp]
      have := ih y
      omega
    · simp only [countRun, if_neg hp]
      omega

theorem countRun_eq_length (p : Char → Bool) :
    ∀ s : List Char, countRun p s = s.length → ∀ c ∈ s, p c := by
  intro s h c hc
  have hts : s.take s.length = s := by simp
  rw [← hts] at hc
  exact countRun_take_prop p s s.length (by omega) c hc

theorem countRun_all (p : Char → Bool) :
    ∀ s : List Char, (∀ c ∈ s, p c) → countRun p s = s.length := by
  intro s
  induction s with
  | nil => simp [countRun]
  | cons a rest ih =>
    intro h
    simp only [countRun, List.length_cons]
    rw [if_pos (h a (List.mem_cons_self a rest)), ih (fun c hc => h c (List.mem_cons_of_mem a hc))]

theorem countRun_prefix_le (p : Char → Bool) :
    ∀ (x y : List Char), x <+: y → countRun p x ≤ countRun p y := by
  intro x
  induction x with
  | nil => simp [countRun]
  | cons a rest ih =>
    intro y hxy
    cases y with
    | nil => simp at hxy
    | cons b ry =>
      rw [List.cons_prefix_cons] at hxy
      obtain ⟨rfl, htail⟩ := hxy
      simp only [countRun]
      split
      · have := ih ry htail; omega
      · omega

theorem countRun_append_all (p : Char → Bool) :
    ∀ (x y : List Char), (∀ c ∈ x, p c) → countRun p (x ++ y) = x.length + countRun p y := by
  intro x
  induction x with
  | nil => simp
  | cons a rest ih =>
    intro y h
    show countRun p (a :: (rest ++ y)) = (a :: rest).length + countRun p y
    simp only [countRun, List.length_cons,
      if_pos (h a (List.mem_cons_self a rest)),
      ih y (fun c hc => h c (List.mem_cons_of_mem a hc))]
    omega

/-! ## Sanity facts about the three matchers -/

/-- `emailDot` only succeeds with the recorded structure. -/
theorem emailDot_spec (rest : List Char) :
    ∀ t0 tl, emailDot rest t0 = some tl →
      ∃ t, t + 1 ≤ t0 ∧ rest.getD (t + 1) ' ' = '.' ∧
        2 ≤ countRun isAsciiAlpha (rest.drop (t + 2)) ∧
        tl = t + 2 + countRun isAsciiAlpha (rest.drop (t + 2)) := by
  intro t0
  induction t0 with
  | zero => intro tl h; simp [emailDot] at h
  | succ t ih =>
    intro tl h
    simp only [emailDot] at h
    split at h
    · rename_i hcond
      simp only [Bool.and_eq_true, decide_eq_true_eq] at hcond
      refine ⟨t, by omega, by simpa using hcond.1, hcond.2, by
        simp only [Option.some.injEq] at h; omega⟩
    · obtain ⟨t', ht', h1, h2, h3⟩ := ih tl h
      exact ⟨t', by omega, h1, h2, h3⟩

/-- A successful email match has positive length bounded by the input. -/
theorem emailMatch_pos (s : List Char) (n : Nat) (h : emailMatch s = some n) :
    1 ≤ n ∧ n ≤ s.length := by
  simp only [emailMatch] at h
  split at h
  · cases h
  · split at h
    · rename_i hl hcond
      simp only [Bool.and_eq_true, decide_eq_true_eq] at hcond
      split at h
      · cases h
      · rename_i d' hd
        simp only [Option.map_eq_some'] at h
        obtain ⟨tl, hdot, hn⟩ := h
        obtain ⟨t, ht, hdotc, ha, htl⟩ := emailDot_spec _ _ _ hdot
        subst hn htl
        constructor
        · omega
        · -- l + 1 + (t + 2 + a) ≤ s.length
          have hlen : countRun isLocalChar s + 1 ≤ s.length := by omega
          have hd' : countRun isDomainChar (s.drop (countRun isLocalChar s + 1)) = d' + 1 := hd
          have hdlen : d' + 1 ≤ (s.drop (countRun isLocalChar s + 1)).length := by
            rw [← hd']; exact countRun_le _ _
          have hrest : (s.drop (countRun isLocalChar s + 1)).length
              = s.length - (countRun isLocalChar s + 1) := by simp
          -- the alpha run lives inside `rest.drop (t+2)`
          have haun := countRun_le isAsciiAlpha
            ((s.drop (countRun isLocalChar s + 1)).drop (t + 2))
          have hddlen : ((s.drop (countRun isLocalChar s + 1)).drop (t + 2)).length
              = s.length - (countRun isLocalChar s + 1) - (t + 2) := by
            simp only [List.length_drop]
          -- t + 1 ≤ d' and d' + 1 ≤ rest.length give t + 2 ≤ rest.length
          have : t + 2 ≤ (s.drop (countRun isLocalChar s + 1)).length := by omega
          omega
    · cases h

/-- A successful phone match has positive length bounded by the input. -/
theorem phoneFind_le (tail : List Char) :
    ∀ k0 k, phoneFind tail k0 = some k → 7 ≤ k ∧ k ≤ k0 := by
  intro k0
  induction k0 with
  | zero => intro k h; simp [phoneFind] at h
  | succ k' ih =>
    intro k h
    simp only [phoneFind] at h
    split at h
    · rename_i h7
      simp only [decide_eq_true_eq] at h7
      split at h
      · simp only [Option.some.injEq] at h; omega
      · obtain ⟨h1, h2⟩ := ih k h; omega
    · cases h

theorem phoneTail_le (tail : List Char) (k : Nat) (h : phoneTail tail = some k) :
    7 ≤ k ∧ k ≤ countRun isPhoneClassChar tail := phoneFind_le tail _ k h

theorem phoneMatch_pos (pw : Bool) (s : List Char) (n : Nat) (h : phoneMatch pw s = some n) :
    1 ≤ n ∧ n ≤ s.length := by
  cases s with
  | nil => simp [phoneMatch] at h
  | cons c rest =>
    simp only [phoneMatch] at h
    split at h
    · cases h
    · split at h
      · -- leading '+': split the inner match on `rest`
        split at h
        · rename_i d rest2
          split at h
          · rw [Option.map_eq_some'] at h
            obtain ⟨k, hk, hn⟩ := h
            have := (phoneTail_le _ _ hk).2
            have hle := countRun_le isPhoneClassChar rest2
            subst hn
            have hlen2 : (c :: d :: rest2).length = rest2.length + 2 := by simp
            omega
          · cases h
        · cases h
      · split at h
        · rw [Option.map_eq_some'] at h
          obtain ⟨k, hk, hn⟩ := h
          have := (phoneTail_le _ _ hk).2
          have hle := countRun_le isPhoneClassChar rest
          subst hn
          have hlen2 : (c :: rest).length = rest.length + 1 := by simp
          omega
        · cases h

theorem seek13_le (needed : Nat) :
    ∀ s m, seek13 needed s = some m → 1 ≤ m ∧ m ≤ s.length := by
  intro s
  induction s generalizing needed with
  | nil => intro m h; simp [seek13] at h
  | cons c rest ih =>
    intro m h
    simp only [seek13] at h
    split at h
    · match hn : needed, h with
      | 0, h => cases h
      | 1, h => simp only [Option.some.injEq] at h; subst h; simp
      | (n + 2), h =>
        simp only [Option.map_eq_some'] at h
        obtain ⟨m', hm', rfl⟩ := h
        have := ih (n + 1) m' hm'
        simp only [List.length_cons]
        omega
    · split at h
      · simp only [Option.map_eq_some'] at h
        obtain ⟨m', hm', rfl⟩ := h
        have := ih needed m' hm'
        simp only [List.length_cons]
        omega
      · cases h

theorem cardMatch_pos (pw : Bool) (s : List Char) (n : Nat) (h : cardMatch pw s = some n) :
    1 ≤ n ∧ n ≤ s.length := by
  cases s with
  | nil => simp [cardMatch] at h
  | cons c rest =>
    simp only [cardMatch] at h
    split at h
    · cases h
    · split at h
      · cases h
      · split at h
        · cases h
        · rename_i m hm
          have hseek := seek13_le 12 rest m hm
          have hext : min (countRun isAsciiDigit (rest.drop m)) 3
              ≤ (rest.drop m).length := by
            have := countRun_le isAsciiDigit (rest.drop m)
            omega
          have hlen : (rest.drop m).length = rest.length - m := by simp
          split at h
          · split at h
            · simp only [Option.some.injEq] at h
              subst h
              simp only [List.length_cons]
              omega
            · cases h
          · simp only [Option.some.injEq] at h
            subst h
            simp only [List.length_cons]
            omega

/-- `getD` at a valid index is a member. -/
theorem getD_mem_of_lt {l : List Char} {n : Nat} {d : Char} (h : n < l.length) :
    l.getD n d ∈ l := by
  rw [List.getD_eq_getElem?_getD, List.getElem?_eq_getElem h]
  simp only [Option.getD_some]
  exact List.getElem_mem h

/-- Without an `@` the email pattern cannot match. -/
theorem emailMatch_none_no_at (s : List Char) (h : '@' ∉ s) : emailMatch s = none := by
  simp only [emailMatch]
  split
  · rfl
  · split
    · rename_i hcond
      simp only [Bool.and_eq_true, decide_eq_true_eq] at hcond
      have hmem : ('@' : Char) ∈ s := by
        rw [← hcond.1]
        exact getD_mem_of_lt hcond.2
      exact absurd hmem h
    · rfl

/-- If a valid split exists at or below the search start, `emailDot` finds one. -/
theorem emailDot_isSome (rest : List Char) :
    ∀ t0 t, t + 1 ≤ t0 → rest.getD (t + 1) ' ' = '.' →
      2 ≤ countRun isAsciiAlpha (rest.drop (t + 2)) → (emailDot rest t0).isSome := by
  intro t0
  induction t0 with
  | zero => intro t ht _ _; omega
  | succ t0' ih =>
    intro t ht hdot ha
    simp only [emailDot]
    split
    · simp
    · rename_i hcond
      rcases Nat.lt_or_ge t t0' with hlt | hge
      · exact ih t (by omega) hdot ha
      · -- t = t0', so the condition at t0' holds: contradiction with hcond
        have : t = t0' := by omega
        subst this
        rw [Bool.and_eq_true, decide_eq_true_eq, decide_eq_true_eq] at hcond
        exact absurd ⟨by simpa using hdot, ha⟩ hcond

/-- A string with a successful email match keeps matching when extended on
the right (the engine may match a different, longer piece). -/
theorem emailMatch_extend (e : List Char) (n : Nat) (h : emailMatch e = some n) :
    ∀ v : List Char, ∃ m, emailMatch (e ++ v) = some m := by
  intro v
  simp only [emailMatch] at h
  split at h
  · cases h
  · rename_i hl0
    split at h
    · rename_i hguard
      simp only [Bool.and_eq_true, decide_eq_true_eq] at hguard
      split at h
      · cases h
      · rename_i d' hd
        rw [Option.map_eq_some'] at h
        obtain ⟨tl, hdot, _⟩ := h
        obtain ⟨t, ht1, hdotc, ha2, _⟩ := emailDot_spec _ _ _ hdot
        have hdlen := countRun_le isDomainChar (e.drop (countRun isLocalChar e + 1))
        rw [hd] at hdlen
        -- facts transported to `e ++ v`
        have hlE : countRun isLocalChar (e ++ v) = countRun isLocalChar e :=
          countRun_append_left _ _ _ hguard.2
        have hat : (e ++ v).getD (countRun isLocalChar e) ' ' = '@' := by
          rw [List.getD_append _ _ _ _ hguard.2]
          exact hguard.1
        have hltE : countRun isLocalChar e < (e ++ v).length := by
          rw [List.length_append]
          omega
        have hrestu : (e ++ v).drop (countRun isLocalChar e + 1)
            = e.drop (countRun isLocalChar e + 1) ++ v :=
          List.drop_append_of_le_length (by omega)
        have hdu : d' + 1 ≤ countRun isDomainChar ((e ++ v).drop (countRun isLocalChar e + 1)) := by
          rw [hrestu]
          have h1 := countRun_le_append isDomainChar (e.drop (countRun isLocalChar e + 1)) v
          omega
        have hrlen : countRun isLocalChar e + 1 + (e.drop (countRun isLocalChar e + 1)).length
            = e.length := by
          simp only [List.length_drop]
          omega
        -- the transported dot position and alpha run
        have hdotu : ((e ++ v).drop (countRun isLocalChar e + 1)).getD (t + 1) ' ' = '.' := by
          rw [hrestu]
          rw [List.getD_append _ _ _ _ (by simp only [List.length_drop]; omega)]
          exact hdotc
        have hau : 2 ≤ countRun isAsciiAlpha
            (((e ++ v).drop (countRun isLocalChar e + 1)).drop (t + 2)) := by
          rw [hrestu, List.drop_append_of_le_length (by simp only [List.length_drop]; omega)]
          calc 2 ≤ countRun isAsciiAlpha ((e.drop (countRun isLocalChar e + 1)).drop (t + 2)) :=
              ha2
            _ ≤ _ := countRun_le_append _ _ _
        -- assemble the match on `e ++ v`
        obtain ⟨du', hdu'⟩ : ∃ du',
            countRun isDomainChar ((e ++ v).drop (countRun isLocalChar e + 1)) = du' + 1 :=
          ⟨countRun isDomainChar ((e ++ v).drop (countRun isLocalChar e + 1)) - 1, by omega⟩
        have hsome := emailDot_isSome ((e ++ v).drop (countRun isLocalChar e + 1)) du' t
          (by omega) hdotu hau
        rw [Option.isSome_iff_exists] at hsome
        obtain ⟨tl', htl'⟩ := hsome
        refine ⟨countRun isLocalChar e + 1 + tl', ?_⟩
        have hguardT : ((e ++ v).getD (countRun isLocalChar e) ' ' = '@'
            && decide (countRun isLocalChar e < (e ++ v).length)) = true := by
          simp only [Bool.and_eq_true, decide_eq_true_eq]
          exact ⟨hat, hltE⟩
        simp only [emailMatch, hlE]
        rw [if_neg hl0, if_pos hguardT, hdu']
        simp only [htl', Option.map_some']
    · cases h

/-- Structure of a full email match: the string contains `@`, every
character is from the pattern's classes, and the length is at least 2. -/
theorem emailMatch_full_struct (e : List Char) (h : emailMatch e = some e.length) :
    '@' ∈ e ∧ (∀ c ∈ e, isLocalChar c ∨ c = '@' ∨ isDomainChar c ∨ isAsciiAlpha c) ∧
      2 ≤ e.length := by
  simp only [emailMatch] at h
  split at h
  · cases h
  · rename_i hl0
    split at h
    · rename_i hguard
      simp only [Bool.and_eq_true, decide_eq_true_eq] at hguard
      split at h
      · cases h
      · rename_i d' hd
        rw [Option.map_eq_some'] at h
        obtain ⟨tl, hdot, hlen⟩ := h
        obtain ⟨t, ht1, hdotc, ha2, htl⟩ := emailDot_spec _ _ _ hdot
        set l := countRun isLocalChar e with hl
        set rest := e.drop (l + 1) with hrest
        have hdlen := countRun_le isDomainChar rest
        rw [hd] at hdlen
        have hrestlen : rest.length = e.length - (l + 1) := by simp [hrest]
        -- e.length = l + 1 + tl forces the alpha run to reach the end of rest
        have hrlen2 : tl = rest.length := by omega
        have hasplit : countRun isAsciiAlpha (rest.drop (t + 2)) = (rest.drop (t + 2)).length := by
          have : (rest.drop (t + 2)).length = rest.length - (t + 2) := by simp
          omega
        refine ⟨?_, ?_, by omega⟩
        · exact hguard.1 ▸ getD_mem_of_lt hguard.2
        · intro c hc
          -- decompose e = take l ++ getD l :: rest
          have hdrop : e.drop l = e.getD l ' ' :: rest := by
            rw [hrest, List.getD_eq_getElem?_getD, List.getElem?_eq_getElem hguard.2]
            simp only [Option.getD_some]
            exact (List.drop_eq_getElem_cons hguard.2)
          have hsplitE : e = e.take l ++ (e.getD l ' ' :: rest) := by
            rw [← hdrop, List.take_append_drop]
          rw [hsplitE] at hc
          rcases List.mem_append.mp hc with hc | hc
          · exact Or.inl (countRun_take_prop isLocalChar e l (le_refl _) c hc)
          · rcases List.mem_cons.mp hc with hc | hc
            · exact Or.inr (Or.inl (hc.trans hguard.1))
            · -- c ∈ rest = take (t+1) ++ getD (t+1) :: drop (t+2)
              have ht2 : t + 1 < rest.length := by omega
              have hdrop2 : rest.drop (t + 1) = rest.getD (t + 1) ' ' :: rest.drop (t + 2) := by
                rw [List.getD_eq_getElem?_getD, List.getElem?_eq_getElem ht2]
                simp only [Option.getD_some]
                exact (List.drop_eq_getElem_cons ht2)
              have hsplitR : rest = rest.take (t + 1) ++ (rest.getD (t + 1) ' '
                  :: rest.drop (t + 2)) := by
                rw [← hdrop2, List.take_append_drop]
              rw [hsplitR] at hc
              rcases List.mem_append.mp hc with hc | hc
              · refine Or.inr (Or.inr (Or.inl ?_))
                exact countRun_take_prop isDomainChar rest (t + 1) (by omega) c hc
              · rcases List.mem_cons.mp hc with hc | hc
                · refine Or.inr (Or.inr (Or.inl ?_))
                  rw [hc, hdotc]
                  decide
                · exact Or.inr (Or.inr (Or.inr
                    (countRun_eq_length isAsciiAlpha _ hasplit c hc)))
    · cases h

/-- The phone matcher fails whenever the head is neither `+` nor a digit. -/
theorem phoneMatch_none_head (pw : Bool) (c : Char) (rest : List Char)
    (h1 : c ≠ '+') (h2 : isAsciiDigit c = false) :
    phoneMatch pw (c :: rest) = none := by
  simp [phoneMatch, h1, h2]

/-- The card matcher fails whenever the head is not a digit. -/
theorem cardMatch_none_head (pw : Bool) (c : Char) (rest : List Char)
    (h : isAsciiDigit c = false) : cardMatch pw (c :: rest) = none := by
  simp [cardMatch, h]

/-- The characters consumed by a phone match are `+`, digits, or phone
class characters. -/
theorem phoneMatch_take (pw : Bool) (s : List Char) (n : Nat)
    (h : phoneMatch pw s = some n) :
    ∀ c ∈ s.take n, c = '+' ∨ isAsciiDigit c ∨ isPhoneClassChar c := by
  cases s with
  | nil => simp [phoneMatch] at h
  | cons c rest =>
    simp only [phoneMatch] at h
    split at h
    · cases h
    · split at h
      · -- '+' head
        split at h
        · rename_i d rest2
          split at h
          · rename_i hplus _ hd
            rw [Option.map_eq_some'] at h
            obtain ⟨k, hk, hn⟩ := h
            have hkle := (phoneTail_le _ _ hk).2
            subst hn
            intro x hx
            have h2k : 2 + k = k + 1 + 1 := by omega
            rw [h2k] at hx
            simp only [List.take_succ_cons, List.mem_cons] at hx
            rcases hx with hx | hx | hx
            · exact Or.inl (by rw [hx, hplus])
            · exact Or.inr (Or.inl (by rw [hx]; exact hd))
            · exact Or.inr (Or.inr (countRun_take_prop isPhoneClassChar rest2 k
                (by omega) x hx))
          · cases h
        · cases h
      · split at h
        · rename_i _ hdig
          rw [Option.map_eq_some'] at h
          obtain ⟨k, hk, hn⟩ := h
          have hkle := (phoneTail_le _ _ hk).2
          subst hn
          intro x hx
          have h1k : 1 + k = k + 1 := by omega
          rw [h1k] at hx
          simp only [List.take_succ_cons, List.mem_cons] at hx
          rcases hx with hx | hx
          · exact Or.inr (Or.inl (by rw [hx]; exact hdig))
          · exact Or.inr (Or.inr (countRun_take_prop isPhoneClassChar rest k
              (by omega) x hx))
        · cases h

/-- The characters consumed by `seek13` are digits or separators. -/
theorem seek13_take (needed : Nat) :
    ∀ s m, seek13 needed s = some m →
      ∀ c ∈ s.take m, isAsciiDigit c ∨ isSepChar c := by
  intro s
  induction s generalizing needed with
  | nil => intro m h; simp [seek13] at h
  | cons c rest ih =>
    intro m h x hx
    simp only [seek13] at h
    split at h
    · rename_i hd
      match needed, h with
      | 1, h =>
        simp only [Option.some.injEq] at h
        subst h
        simp only [List.take_succ_cons, List.take_zero, List.mem_singleton] at hx
        exact Or.inl (hx ▸ hd)
      | (n + 2), h =>
        rw [Option.map_eq_some'] at h
        obtain ⟨m', hm', rfl⟩ := h
        simp only [List.take_succ_cons, List.mem_cons] at hx
        rcases hx with hx | hx
        · exact Or.inl (hx ▸ hd)
        · exact ih (n + 1) m' hm' x hx
    · split at h
      · rename_i hsep
        rw [Option.map_eq_some'] at h
        obtain ⟨m', hm', rfl⟩ := h
        simp only [List.take_succ_cons, List.mem_cons] at hx
        rcases hx with hx | hx
        · exact Or.inr (hx ▸ hsep)
        · exact ih needed m' hm' x hx
      · cases h

/-- The characters consumed by a card match are digits or separators. -/
theorem cardMatch_take (pw : Bool) (s : List Char) (n : Nat)
    (h : cardMatch pw s = some n) :
    ∀ c ∈ s.take n, isAsciiDigit c ∨ isSepChar c := by
  cases s with
  | nil => simp [cardMatch] at h
  | cons c rest =>
    simp only [cardMatch] at h
    split at h
    · cases h
    · split at h
      · cases h
      · rename_i hbd hdig
        split at h
        · cases h
        · rename_i m hm
          have hmn : ∃ ext, n = 1 + m + ext ∧
              ext ≤ countRun isAsciiDigit (rest.drop m) := by
            split at h
            · split at h
              · simp only [Option.some.injEq] at h
                exact ⟨_, h.symm, min_le_left _ _⟩
              · cases h
            · simp only [Option.some.injEq] at h
              exact ⟨_, h.symm, min_le_left _ _⟩
          obtain ⟨ext, rfl, hext⟩ := hmn
          intro x hx
          have h1me : 1 + m + ext = (m + ext) + 1 := by omega
          rw [h1me] at hx
          simp only [List.take_succ_cons, List.mem_cons] at hx
          rcases hx with hx | hx
          · subst hx
            simp only [Bool.not_eq_true'] at hdig
            exact Or.inl (by simpa using hdig)
          · -- x ∈ rest.take (m + ext) = rest.take m ++ (rest.drop m).take ext
            have hsplit : rest.take (m + ext) = rest.take m ++ (rest.drop m).take ext := by
              rw [List.take_add]
            rw [hsplit] at hx
            rcases List.mem_append.mp hx with hx | hx
            · exact seek13_take 12 rest m hm x hx
            · exact Or.inl (countRun_take_prop isAsciiDigit (rest.drop m) ext hext x hx)

/-! ## Generic lemmas about the `re.sub` scanner -/

/-- The word-character status of the character preceding the continuation
after consuming `u`, starting from status `pw`. -/
def prevAfter (pw : Bool) (u : List Char) : Bool :=
  u.foldl (fun _ c => isWordChar c) pw

theorem prevAfter_nil (pw : Bool) : prevAfter pw [] = pw := rfl

theorem prevAfter_cons (pw : Bool) (c : Char) (u : List Char) :
    prevAfter pw (c :: u) = prevAfter (isWordChar c) u := rfl

theorem reSubGo_nil (matcher : Bool → List Char → Option Nat) (tok : List Char)
    (fuel : Nat) (pw : Bool) : reSubGo matcher tok fuel pw [] = [] := by
  cases fuel <;> rfl

/-- With enough fuel, the result does not depend on the exact fuel. -/
theorem reSubGo_fuel (matcher : Bool → List Char → Option Nat) (tok : List Char) :
    ∀ fuel s fuel' pw, s.length ≤ fuel → s.length ≤ fuel' →
      reSubGo matcher tok fuel pw s = reSubGo matcher tok fuel' pw s := by
  intro fuel
  induction fuel with
  | zero =>
    intro s fuel' pw h _
    have : s = [] := List.length_eq_zero.mp (Nat.le_zero.mp h)
    subst this
    rw [reSubGo_nil, reSubGo_nil]
  | succ f ih =>
    intro s fuel' pw h h'
    cases s with
    | nil => rw [reSubGo_nil, reSubGo_nil]
    | cons c rest =>
      cases fuel' with
      | zero => simp at h'
      | succ f' =>
        have hrest : rest.length ≤ f := by simp at h; omega
        have hrest' : rest.length ≤ f' := by simp at h'; omega
        cases hm : matcher pw (c :: rest) with
        | none =>
          simp only [reSubGo, hm]
          rw [ih rest f' (isWordChar c) hrest hrest']
        | some n =>
          cases n with
          | zero =>
            simp only [reSubGo, hm]
            rw [ih rest f' (isWordChar c) hrest hrest']
          | succ n' =>
            simp only [reSubGo, hm]
            have hd : ((c :: rest).drop (n' + 1)).length ≤ f := by
              simp only [List.length_drop, List.length_cons]
              omega
            have hd' : ((c :: rest).drop (n' + 1)).length ≤ f' := by
              simp only [List.length_drop, List.length_cons]
              omega
            rw [ih _ f' _ hd hd']

/-- If the matcher fails at every scan position, the pass is the identity. -/
theorem reSubGo_id (matcher : Bool → List Char → Option Nat) (tok : List Char) :
    ∀ fuel pw s, (∀ pw' t, t <:+ s → matcher pw' t = none) →
      reSubGo matcher tok fuel pw s = s := by
  intro fuel
  induction fuel with
  | zero => intro pw s _ ; rfl
  | succ f ih =>
    intro pw s hnone
    cases s with
    | nil => rfl
    | cons c rest =>
      have hm := hnone pw (c :: rest) (List.suffix_refl _)
      simp only [reSubGo, hm]
      rw [ih (isWordChar c) rest
        (fun pw' t ht => hnone pw' t (ht.trans (List.suffix_cons c rest)))]

/-- A region where the matcher fails at every position is copied verbatim. -/
theorem reSubGo_skip (matcher : Bool → List Char → Option Nat) (tok : List Char) :
    ∀ (u : List Char) (fuel fuelv : Nat) (pw : Bool) (v : List Char),
      u.length + v.length ≤ fuel → v.length ≤ fuelv →
      (∀ pw' t, t <:+ u → t ≠ [] → matcher pw' (t ++ v) = none) →
      reSubGo matcher tok fuel pw (u ++ v)
        = u ++ reSubGo matcher tok fuelv (prevAfter pw u) v := by
  intro u
  induction u with
  | nil =>
    intro fuel fuelv pw v h hv _
    simp only [List.nil_append, prevAfter_nil]
    exact reSubGo_fuel matcher tok fuel v fuelv pw (by omega) hv
  | cons c u' ih =>
    intro fuel fuelv pw v h hv hnone
    cases fuel with
    | zero => simp at h
    | succ f =>
      have hm : matcher pw ((c :: u') ++ v) = none :=
        hnone pw (c :: u') (List.suffix_refl _) (by simp)
      rw [List.cons_append] at hm
      show reSubGo matcher tok (f + 1) pw (c :: (u' ++ v)) = _
      simp only [reSubGo, hm]
      rw [prevAfter_cons]
      rw [ih f fuelv (isWordChar c) v (by simp at h ⊢; omega) hv
        (fun pw' t ht hne => hnone pw' t (ht.trans (List.suffix_cons c u')) hne)]
      rfl

/-- If a (prev-independent) match exists at some position, a token appears
in the output. -/
theorem reSubGo_token_of_match (matcher : Bool → List Char → Option Nat) (tok : List Char)
    (hindep : ∀ pw pw' t, matcher pw t = matcher pw' t)
    (hpos : ∀ pw t n, matcher pw t = some n → 1 ≤ n ∧ n ≤ t.length) :
    ∀ fuel pw s b, s.length ≤ fuel → b <:+ s → (matcher false b).isSome →
      tok <:+: reSubGo matcher tok fuel pw s := by
  intro fuel
  induction fuel with
  | zero =>
    intro pw s b hlen hb hsome
    exfalso
    have hs : s = [] := List.length_eq_zero.mp (Nat.le_zero.mp hlen)
    subst hs
    have hbnil : b = [] := List.eq_nil_of_suffix_nil hb
    subst hbnil
    rw [Option.isSome_iff_exists] at hsome
    obtain ⟨n, hn⟩ := hsome
    have := hpos false [] n hn
    simp at this
    omega
  | succ f ih =>
    intro pw s b hlen hb hsome
    cases s with
    | nil =>
      exfalso
      have hbnil : b = [] := List.eq_nil_of_suffix_nil hb
      subst hbnil
      rw [Option.isSome_iff_exists] at hsome
      obtain ⟨n, hn⟩ := hsome
      have := hpos false [] n hn
      simp at this
      omega
    | cons c rest =>
      cases hm : matcher pw (c :: rest) with
      | some n =>
        cases n with
        | zero =>
          exfalso
          have := hpos pw (c :: rest) 0 hm
          omega
        | succ n' =>
          simp only [reSubGo, hm]
          exact (List.prefix_append tok _).isInfix
      | none =>
        rcases List.suffix_cons_iff.mp hb with hbs | hbs
        · exfalso
          rw [hbs] at hsome
          rw [hindep false pw (c :: rest), hm] at hsome
          simp at hsome
        · simp only [reSubGo, hm]
          exact List.infix_cons (ih (isWordChar c) rest b (by simp at hlen; omega)
            hbs hsome)

/-- A prefix of an append is a prefix of the left part, or extends it. -/
theorem prefix_append_cases {p t u : List Char} (h : p <+: t ++ u) :
    p <+: t ∨ ∃ q, p = t ++ q ∧ q <+: u := by
  induction t generalizing p with
  | nil => exact Or.inr ⟨p, rfl, by simpa using h⟩
  | cons c t' ih =>
    cases p with
    | nil => exact Or.inl List.nil_prefix
    | cons d p' =>
      rw [List.cons_append, List.cons_prefix_cons] at h
      obtain ⟨rfl, hp'⟩ := h
      rcases ih hp' with hp' | ⟨q, rfl, hq⟩
      · exact Or.inl (List.cons_prefix_cons.mpr ⟨rfl, hp'⟩)
      · exact Or.inr ⟨q, by simp, hq⟩

/-- Splitting an occurrence inside an append: inside the left part, inside
the right part, or straddling the boundary. -/
theorem infix_append_split {e t u : List Char} (h : e <:+: t ++ u) :
    e <:+: t ∨ e <:+: u ∨
      ∃ e1 e2, e = e1 ++ e2 ∧ e1 ≠ [] ∧ e2 ≠ [] ∧ e1 <:+ t ∧ e2 <+: u := by
  induction t generalizing e with
  | nil => exact Or.inr (Or.inl (by simpa using h))
  | cons c t' ih =>
    rw [List.cons_append, List.infix_cons_iff] at h
    rcases h with h | h
    · cases e with
      | nil => exact Or.inl List.nil_infix
      | cons d e' =>
        rw [List.cons_prefix_cons] at h
        obtain ⟨rfl, he'⟩ := h
        rcases prefix_append_cases he' with he' | ⟨q, rfl, hq⟩
        · exact Or.inl (List.IsPrefix.isInfix (List.cons_prefix_cons.mpr ⟨rfl, he'⟩))
        · by_cases hq0 : q = []
          · subst hq0
            refine Or.inl ?_
            have he : d :: (t' ++ ([] : List Char)) = d :: t' := by simp
            rw [he]
          · exact Or.inr (Or.inr ⟨d :: t', q, by simp, by simp, hq0,
              List.suffix_refl _, hq⟩)
    · rcases ih h with h | h | ⟨e1, e2, he, h1, h2, h3, h4⟩
      · exact Or.inl (List.infix_cons h)
      · exact Or.inr (Or.inl h)
      · exact Or.inr (Or.inr ⟨e1, e2, he, h1, h2, h3.trans (List.suffix_cons _ _), h4⟩)

/-- A token occurrence survives a pass whose matcher neither starts at a
token character nor consumes one. -/
theorem reSubGo_token_preserved (matcher : Bool → List Char → Option Nat)
    (tok okTok : List Char) (hok : okTok ≠ [])
    (hheadfail : ∀ pw c rest, c ∈ okTok → matcher pw (c :: rest) = none)
    (hconsumed : ∀ pw t n, matcher pw t = some n → ∀ c ∈ t.take n, c ∉ okTok) :
    ∀ fuel pw s, s.length ≤ fuel → okTok <:+: s →
      okTok <:+: reSubGo matcher tok fuel pw s := by
  intro fuel
  induction fuel with
  | zero => intro pw s _ h; exact h
  | succ f ih =>
    intro pw s hlen h
    obtain ⟨x, y, hxy⟩ := h
    cases x with
    | nil =>
      -- okTok is a prefix of s: the matcher fails on all of okTok, so it is
      -- copied verbatim
      rw [List.nil_append] at hxy
      subst hxy
      rw [reSubGo_skip matcher tok okTok (f + 1) y.length pw y
        (by simpa using hlen) (le_refl _)
        (fun pw' t ht htne => by
          cases ht' : t with
          | nil => exact absurd ht' htne
          | cons c rest =>
            subst ht'
            have hc : c ∈ okTok := ht.subset (List.mem_cons_self c rest)
            rw [List.cons_append]
            exact hheadfail pw' c (rest ++ y) hc)]
      exact ⟨[], reSubGo matcher tok y.length (prevAfter pw okTok) y, by simp⟩
    | cons c x' =>
      subst hxy
      show okTok <:+: reSubGo matcher tok (f + 1) pw (c :: (x' ++ okTok ++ y))
      cases hm : matcher pw (c :: (x' ++ okTok ++ y)) with
      | none =>
        simp only [reSubGo, hm]
        exact List.infix_cons (ih (isWordChar c) _
          (by simp at hlen ⊢; omega) ⟨x', y, rfl⟩)
      | some n =>
        cases n with
        | zero =>
          simp only [reSubGo, hm]
          exact List.infix_cons (ih (isWordChar c) _
            (by simp at hlen ⊢; omega) ⟨x', y, rfl⟩)
        | succ n' =>
          simp only [reSubGo, hm]
          -- the match cannot reach into the token: compare n'+1 with the
          -- offset of the token
          rcases Nat.lt_or_ge (x'.length + 1) (n' + 1) with hcase | hcase
          · -- the token's head would be among the consumed characters
            exfalso
            have hhd : okTok.getD 0 ' ' ∈ okTok := by
              cases okTok with
              | nil => exact absurd rfl hok
              | cons a l => exact List.mem_cons_self a l
            have hmem : okTok.getD 0 ' ' ∈ (c :: (x' ++ okTok ++ y)).take (n' + 1) := by
              have hlt : x'.length + 1 < (c :: (x' ++ okTok ++ y)).length := by
                have : 1 ≤ okTok.length := by
                  cases okTok with
                  | nil => exact absurd rfl hok
                  | cons a l => simp
                simp only [List.length_cons, List.length_append]
                omega
              have hgetd : (c :: (x' ++ okTok ++ y)).getD (x'.length + 1) ' '
                  = okTok.getD 0 ' ' := by
                show (c :: (x' ++ okTok ++ y)).getD (x'.length + 1) ' ' = _
                have h1 : (c :: (x' ++ okTok ++ y)).getD (x'.length + 1) ' '
                    = (x' ++ okTok ++ y).getD x'.length ' ' := by
                  simp [List.getD_cons_succ]
                rw [h1, List.append_assoc]
                rw [List.getD_append_right x' (okTok ++ y) ' ' x'.length (le_refl _)]
                simp only [Nat.sub_self]
                cases okTok with
                | nil => exact absurd rfl hok
                | cons a l => simp
              rw [← hgetd]
              have : (c :: (x' ++ okTok ++ y)).getD (x'.length + 1) ' '
                  ∈ ((c :: (x' ++ okTok ++ y)).take (n' + 1)) := by
                have hlt2 : x'.length + 1 < n' + 1 := hcase
                have htk : ((c :: (x' ++ okTok ++ y)).take (n' + 1)).getD (x'.length + 1) ' '
                    = (c :: (x' ++ okTok ++ y)).getD (x'.length + 1) ' ' := by
                  rw [List.getD_eq_getElem?_getD, List.getD_eq_getElem?_getD,
                    List.getElem?_take_of_lt hlt2]
                rw [← htk]
                refine getD_mem_of_lt ?_
                rw [List.length_take]
                omega
              exact this
            exact hconsumed pw _ (n' + 1) hm _ hmem hhd
          · -- the whole match lies inside x' ++ first chars: token survives in
            -- the dropped part
            have hdrop : okTok <:+: (c :: (x' ++ okTok ++ y)).drop (n' + 1) := by
              have hx'len : n' + 1 ≤ x'.length + 1 := hcase
              have hform : (c :: (x' ++ okTok ++ y)).drop (n' + 1)
                  = ((c :: x').drop (n' + 1)) ++ okTok ++ y := by
                have h1 : c :: (x' ++ okTok ++ y) = (c :: x') ++ (okTok ++ y) := by
                  simp
                rw [h1, List.drop_append_of_le_length (by simp; omega)]
                simp [List.append_assoc]
              rw [hform]
              exact ⟨(c :: x').drop (n' + 1), y, rfl⟩
            exact ((ih _ _ (by simp at hlen ⊢; omega) hdrop).trans
              (List.suffix_append tok _).isInfix : _)

/-- A bracket-free prefix of the output is a prefix of the input (tokens
start with `[`). -/
theorem reSubGo_bracketfree_pfx (matcher : Bool → List Char → Option Nat)
    (tok : List Char) (htok : ∃ mid, tok = '[' :: mid) :
    ∀ fuel pw s p, p <+: reSubGo matcher tok fuel pw s → '[' ∉ p → p <+: s := by
  intro fuel
  induction fuel with
  | zero => intro pw s p hp _; exact hp
  | succ f ih =>
    intro pw s p hp hbr
    cases s with
    | nil => rwa [reSubGo_nil] at hp
    | cons c rest =>
      cases hm : matcher pw (c :: rest) with
      | none =>
        rw [show reSubGo matcher tok (f + 1) pw (c :: rest)
            = c :: reSubGo matcher tok f (isWordChar c) rest by simp only [reSubGo, hm]] at hp
        cases p with
        | nil => exact List.nil_prefix
        | cons d p' =>
          rw [List.cons_prefix_cons] at hp
          obtain ⟨rfl, hp'⟩ := hp
          exact List.cons_prefix_cons.mpr ⟨rfl,
            ih (isWordChar d) rest p' hp' (fun hmem => hbr (List.mem_cons_of_mem _ hmem))⟩
      | some n =>
        cases n with
        | zero =>
          rw [show reSubGo matcher tok (f + 1) pw (c :: rest)
              = c :: reSubGo matcher tok f (isWordChar c) rest by
            simp only [reSubGo, hm]] at hp
          cases p with
          | nil => exact List.nil_prefix
          | cons d p' =>
            rw [List.cons_prefix_cons] at hp
            obtain ⟨rfl, hp'⟩ := hp
            exact List.cons_prefix_cons.mpr ⟨rfl,
              ih (isWordChar d) rest p' hp' (fun hmem => hbr (List.mem_cons_of_mem _ hmem))⟩
        | succ n' =>
          rw [show reSubGo matcher tok (f + 1) pw (c :: rest)
              = tok ++ reSubGo matcher tok f (isWordChar ((c :: rest).getD n' ' '))
                  ((c :: rest).drop (n' + 1)) by simp only [reSubGo, hm]] at hp
          cases p with
          | nil => exact List.nil_prefix
          | cons d p' =>
            exfalso
            obtain ⟨mid, rfl⟩ := htok
            rw [List.cons_append, List.cons_prefix_cons] at hp
            exact hbr (hp.1 ▸ List.mem_cons_self d p')

/-- A pass can not create a new occurrence of a string that contains `@`
but no brackets, when the token is bracket-delimited and `@`-free. -/
theorem reSubGo_nocreate (matcher : Bool → List Char → Option Nat) (tok : List Char)
    (htok : ∃ mid, tok = '[' :: mid ++ [']']) (htokat : '@' ∉ tok) :
    ∀ fuel pw s e, '@' ∈ e → '[' ∉ e → ']' ∉ e → 2 ≤ e.length →
      e <:+: reSubGo matcher tok fuel pw s → e <:+: s := by
  intro fuel
  induction fuel with
  | zero => intro pw s e _ _ _ _ h; exact h
  | succ f ih =>
    intro pw s e hat hbr1 hbr2 hlen2 h
    cases s with
    | nil => rwa [reSubGo_nil] at h
    | cons c rest =>
      cases hm : matcher pw (c :: rest) with
      | none =>
        rw [show reSubGo matcher tok (f + 1) pw (c :: rest)
            = c :: reSubGo matcher tok f (isWordChar c) rest by simp only [reSubGo, hm]] at h
        have hsplit : e <:+: [c] ++ reSubGo matcher tok f (isWordChar c) rest := by
          simpa using h
        rcases infix_append_split hsplit with hc | hc | ⟨e1, e2, rfl, h1, h2, h3, h4⟩
        · -- e inside [c]: impossible, e has length ≥ 2
          exfalso
          have := hc.sublist.length_le
          simp at this
          omega
        · exact List.infix_cons (ih (isWordChar c) rest e hat hbr1 hbr2 hlen2 hc)
        · -- e = e1 ++ e2 with e1 a nonempty suffix of [c] (so e1 = [c]) and
          -- e2 a bracket-free prefix of the output of rest
          have he1 : e1 = [c] := by
            rcases List.suffix_cons_iff.mp h3 with h | h
            · exact h
            · exact absurd (List.eq_nil_of_suffix_nil h) h1
          subst he1
          have he2 : e2 <+: rest :=
            reSubGo_bracketfree_pfx matcher tok
              (by obtain ⟨mid, htk⟩ := htok; exact ⟨mid ++ [']'], htk⟩) f _ rest e2 h4
              (fun hmem => hbr1 (List.mem_append_right _ hmem))
          -- so e is a prefix of c :: rest
          obtain ⟨w, hw⟩ := he2
          exact ⟨[], w, by simp [← hw]⟩
      | some n =>
        cases n with
        | zero =>
          rw [show reSubGo matcher tok (f + 1) pw (c :: rest)
              = c :: reSubGo matcher tok f (isWordChar c) rest by
            simp only [reSubGo, hm]] at h
          have hsplit : e <:+: [c] ++ reSubGo matcher tok f (isWordChar c) rest := by
            simpa using h
          rcases infix_append_split hsplit with hc | hc | ⟨e1, e2, rfl, h1, h2, h3, h4⟩
          · exfalso
            have := hc.sublist.length_le
            simp at this
            omega
          · exact List.infix_cons (ih (isWordChar c) rest e hat hbr1 hbr2 hlen2 hc)
          · have he1 : e1 = [c] := by
              rcases List.suffix_cons_iff.mp h3 with h | h
              · exact h
              · exact absurd (List.eq_nil_of_suffix_nil h) h1
            subst he1
            have he2 : e2 <+: rest :=
              reSubGo_bracketfree_pfx matcher tok
                (by obtain ⟨mid, htk⟩ := htok; exact ⟨mid ++ [']'], htk⟩) f _ rest e2 h4
                (fun hmem => hbr1 (List.mem_append_right _ hmem))
            obtain ⟨w, hw⟩ := he2
            exact ⟨[], w, by simp [← hw]⟩
        | succ n' =>
          rw [show reSubGo matcher tok (f + 1) pw (c :: rest)
              = tok ++ reSubGo matcher tok f (isWordChar ((c :: rest).getD n' ' '))
                  ((c :: rest).drop (n' + 1)) by simp only [reSubGo, hm]] at h
          rcases infix_append_split h with hc | hc | ⟨e1, e2, rfl, h1, h2, h3, h4⟩
          · exact absurd (hc.subset hat) htokat
          · have hrec := ih _ _ e hat hbr1 hbr2 hlen2 hc
            exact hrec.trans (List.drop_suffix _ _).isInfix
          · -- e1 is a nonempty suffix of the token, so it ends with ']' ∈ e
            exfalso
            obtain ⟨mid, htk⟩ := htok
            have hlast : e1.getLast? = some ']' := by
              obtain ⟨pre, hpre⟩ := h3
              have : (pre ++ e1).getLast? = some ']' := by
                rw [hpre, htk]
                rw [show ('[' :: mid ++ [']'] : List Char) = ('[' :: mid) ++ [']'] by simp]
                exact List.getLast?_concat _
              rwa [List.getLast?_append_of_ne_nil pre h1] at this
            have hmem : (']' : Char) ∈ e1 := by
              have := List.mem_of_mem_getLast? (l := e1) (a := ']')
              exact this hlast
            exact hbr2 (List.mem_append_left _ hmem)

/-- The email pass removes every occurrence of a fully matching email and
creates no new one. -/
theorem emailSub_no_email (e : List Char) (hfull : emailMatch e = some e.length) :
    ∀ fuel pw s, s.length ≤ fuel →
      ¬ e <:+: reSubGo (fun _ t => emailMatch t) tokEmail fuel pw s := by
  obtain ⟨hat, hcl, hlen2⟩ := emailMatch_full_struct e hfull
  have hbr1 : '[' ∉ e := by
    intro hm
    rcases hcl '[' hm with h | h | h | h
    · exact absurd h (by decide)
    · exact absurd h (by decide)
    · exact absurd h (by decide)
    · exact absurd h (by decide)
  have hbr2 : ']' ∉ e := by
    intro hm
    rcases hcl ']' hm with h | h | h | h
    · exact absurd h (by decide)
    · exact absurd h (by decide)
    · exact absurd h (by decide)
    · exact absurd h (by decide)
  intro fuel
  induction fuel with
  | zero =>
    intro pw s hlen hcon
    have hs : s = [] := List.length_eq_zero.mp (Nat.le_zero.mp hlen)
    subst hs
    have := List.eq_nil_of_infix_nil hcon
    subst this
    simp at hlen2
  | succ f ih =>
    intro pw s hlen hcon
    cases s with
    | nil =>
      rw [reSubGo_nil] at hcon
      have := List.eq_nil_of_infix_nil hcon
      subst this
      simp at hlen2
    | cons c rest =>
      cases hm : emailMatch (c :: rest) with
      | none =>
        rw [show reSubGo (fun _ t => emailMatch t) tokEmail (f + 1) pw (c :: rest)
            = c :: reSubGo (fun _ t => emailMatch t) tokEmail f (isWordChar c) rest by
          simp only [reSubGo, hm]] at hcon
        have hsplit : e <:+: [c]
            ++ reSubGo (fun _ t => emailMatch t) tokEmail f (isWordChar c) rest := by
          simpa using hcon
        rcases infix_append_split hsplit with hc | hc | ⟨e1, e2, he12, h1, h2, h3, h4⟩
        · have := hc.sublist.length_le
          simp at this
          omega
        · exact ih (isWordChar c) rest (by simp at hlen; omega) hc
        · -- e starts at this position: the matcher would have matched
          have he1 : e1 = [c] := by
            rcases List.suffix_cons_iff.mp h3 with h | h
            · exact h
            · exact absurd (List.eq_nil_of_suffix_nil h) h1
          subst he1
          have he2 : e2 <+: rest :=
            reSubGo_bracketfree_pfx (fun _ t => emailMatch t) tokEmail
              ⟨"REDACTED_EMAIL]".toList, rfl⟩ f _ rest e2 h4
              (fun hmem => hbr1 (he12 ▸ List.mem_append_right _ hmem))
          have hepre : e <+: c :: rest := by
            rw [he12]
            obtain ⟨w, hw⟩ := he2
            exact ⟨w, by simp [← hw]⟩
          obtain ⟨v, hv⟩ := hepre
          obtain ⟨m, hmatch⟩ := emailMatch_extend e e.length hfull v
          rw [hv] at hmatch
          rw [hmatch] at hm
          cases hm
      | some n =>
        cases n with
        | zero =>
          exfalso
          have := emailMatch_pos (c :: rest) 0 hm
          omega
        | succ n' =>
          rw [show reSubGo (fun _ t => emailMatch t) tokEmail (f + 1) pw (c :: rest)
              = tokEmail ++ reSubGo (fun _ t => emailMatch t) tokEmail f
                  (isWordChar ((c :: rest).getD n' ' ')) ((c :: rest).drop (n' + 1)) by
            simp only [reSubGo, hm]] at hcon
          rcases infix_append_split hcon with hc | hc | ⟨e1, e2, he12, h1, h2, h3, h4⟩
          · have : ('@' : Char) ∈ tokEmail := hc.subset hat
            exact absurd this (by decide)
          · exact ih _ _ (by simp at hlen ⊢; omega) hc
          · have hlast : e1.getLast? = some ']' := by
              obtain ⟨pre, hpre⟩ := h3
              have hconc : (pre ++ e1).getLast? = some ']' := by
                rw [hpre]
                rw [show (tokEmail : List Char) = "[REDACTED_EMAIL".toList ++ [']'] by decide]
                exact List.getLast?_concat _
              rwa [List.getLast?_append_of_ne_nil pre h1] at hconc
            have hmem : (']' : Char) ∈ e1 := List.mem_of_mem_getLast? hlast
            exact hbr2 (he12 ▸ List.mem_append_left _ hmem)

/-! ## Character-weight argument (digits and `@` can only disappear) -/

/-- Number of digits and `@` characters: every replaced region loses at
least one of these, and the tokens contain none. -/
def pweight (s : List Char) : Nat := s.countP (fun c => isAsciiDigit c || c = '@')

theorem pweight_append (a b : List Char) : pweight (a ++ b) = pweight a + pweight b :=
  List.countP_append _ a b

theorem pweight_infix_le {a b : List Char} (h : a <:+: b) : pweight a ≤ pweight b :=
  h.sublist.countP_le _

theorem reSubGo_pweight_le (matcher : Bool → List Char → Option Nat) (tok : List Char)
    (htok : pweight tok = 0) :
    ∀ fuel pw s, pweight (reSubGo matcher tok fuel pw s) ≤ pweight s := by
  intro fuel
  induction fuel with
  | zero => intro pw s; exact le_refl _
  | succ f ih =>
    intro pw s
    cases s with
    | nil => rw [reSubGo_nil]
    | cons c rest =>
      cases hm : matcher pw (c :: rest) with
      | none =>
        simp only [reSubGo, hm]
        have h1 : pweight (c :: reSubGo matcher tok f (isWordChar c) rest)
            = pweight [c] + pweight (reSubGo matcher tok f (isWordChar c) rest) := by
          rw [show c :: reSubGo matcher tok f (isWordChar c) rest
              = [c] ++ reSubGo matcher tok f (isWordChar c) rest from rfl, pweight_append]
        have h2 : pweight (c :: rest) = pweight [c] + pweight rest := by
          rw [show c :: rest = [c] ++ rest from rfl, pweight_append]
        rw [h1, h2]
        have := ih (isWordChar c) rest
        omega
      | some n =>
        cases n with
        | zero =>
          simp only [reSubGo, hm]
          have h1 : pweight (c :: reSubGo matcher tok f (isWordChar c) rest)
              = pweight [c] + pweight (reSubGo matcher tok f (isWordChar c) rest) := by
            rw [show c :: reSubGo matcher tok f (isWordChar c) rest
                = [c] ++ reSubGo matcher tok f (isWordChar c) rest from rfl, pweight_append]
          have h2 : pweight (c :: rest) = pweight [c] + pweight rest := by
            rw [show c :: rest = [c] ++ rest from rfl, pweight_append]
          rw [h1, h2]
          have := ih (isWordChar c) rest
          omega
        | succ n' =>
          simp only [reSubGo, hm]
          rw [pweight_append, htok]
          have hdec : pweight ((c :: rest).drop (n' + 1)) ≤ pweight (c :: rest) :=
            (List.drop_suffix _ _).sublist.countP_le _
          have := ih (isWordChar ((c :: rest).getD n' ' ')) ((c :: rest).drop (n' + 1))
          omega

theorem reSubGo_pweight_lt (matcher : Bool → List Char → Option Nat) (tok : List Char)
    (htok : pweight tok = 0)
    (hmw : ∀ pw t n, matcher pw t = some n → 1 ≤ pweight (t.take n)) :
    ∀ fuel pw s, reSubGo matcher tok fuel pw s ≠ s →
      pweight (reSubGo matcher tok fuel pw s) < pweight s := by
  intro fuel
  induction fuel with
  | zero => intro pw s hne; exact absurd rfl hne
  | succ f ih =>
    intro pw s hne
    cases s with
    | nil => rw [reSubGo_nil] at hne; exact absurd rfl hne
    | cons c rest =>
      cases hm : matcher pw (c :: rest) with
      | none =>
        rw [show reSubGo matcher tok (f + 1) pw (c :: rest)
            = c :: reSubGo matcher tok f (isWordChar c) rest by simp only [reSubGo, hm]] at hne ⊢
        have hne' : reSubGo matcher tok f (isWordChar c) rest ≠ rest := by
          intro h
          exact hne (by rw [h])
        have h1 : pweight (c :: reSubGo matcher tok f (isWordChar c) rest)
            = pweight [c] + pweight (reSubGo matcher tok f (isWordChar c) rest) := by
          rw [show c :: reSubGo matcher tok f (isWordChar c) rest
              = [c] ++ reSubGo matcher tok f (isWordChar c) rest from rfl, pweight_append]
        have h2 : pweight (c :: rest) = pweight [c] + pweight rest := by
          rw [show c :: rest = [c] ++ rest from rfl, pweight_append]
        rw [h1, h2]
        have := ih (isWordChar c) rest hne'
        omega
      | some n =>
        cases n with
        | zero =>
          rw [show reSubGo matcher tok (f + 1) pw (c :: rest)
              = c :: reSubGo matcher tok f (isWordChar c) rest by
            simp only [reSubGo, hm]] at hne ⊢
          have hne' : reSubGo matcher tok f (isWordChar c) rest ≠ rest := by
            intro h
            exact hne (by rw [h])
          have h1 : pweight (c :: reSubGo matcher tok f (isWordChar c) rest)
              = pweight [c] + pweight (reSubGo matcher tok f (isWordChar c) rest) := by
            rw [show c :: reSubGo matcher tok f (isWordChar c) rest
                = [c] ++ reSubGo matcher tok f (isWordChar c) rest from rfl, pweight_append]
          have h2 : pweight (c :: rest) = pweight [c] + pweight rest := by
            rw [show c :: rest = [c] ++ rest from rfl, pweight_append]
          rw [h1, h2]
          have := ih (isWordChar c) rest hne'
          omega
        | succ n' =>
          rw [show reSubGo matcher tok (f + 1) pw (c :: rest)
              = tok ++ reSubGo matcher tok f (isWordChar ((c :: rest).getD n' ' '))
                  ((c :: rest).drop (n' + 1)) by simp only [reSubGo, hm]]
          rw [pweight_append, htok]
          have hsplit : pweight (c :: rest)
              = pweight ((c :: rest).take (n' + 1)) + pweight ((c :: rest).drop (n' + 1)) := by
            rw [← pweight_append, List.take_append_drop]
          have h1 := hmw pw (c :: rest) (n' + 1) hm
          have h2 := reSubGo_pweight_le matcher tok htok f
            (isWordChar ((c :: rest).getD n' ' ')) ((c :: rest).drop (n' + 1))
          omega

/-- An email match consumes at least one weighted character (the `@`). -/
theorem emailMatch_weight (t : List Char) (n : Nat) (h : emailMatch t = some n) :
    1 ≤ pweight (t.take n) := by
  simp only [emailMatch] at h
  split at h
  · cases h
  · rename_i hl0
    split at h
    · rename_i hguard
      simp only [Bool.and_eq_true, decide_eq_true_eq] at hguard
      split at h
      · cases h
      · rw [Option.map_eq_some'] at h
        obtain ⟨tl, hdot, hn⟩ := h
        have hmem : ('@' : Char) ∈ t.take n := by
          have hl : countRun isLocalChar t < n := by omega
          have hgd : (t.take n).getD (countRun isLocalChar t) ' '
              = t.getD (countRun isLocalChar t) ' ' := by
            rw [List.getD_eq_getElem?_getD, List.getD_eq_getElem?_getD,
              List.getElem?_take_of_lt hl]
          have hlt : countRun isLocalChar t < (t.take n).length := by
            rw [List.length_take]
            exact lt_min hl hguard.2
          have hm2 := getD_mem_of_lt (l := t.take n) (n := countRun isLocalChar t)
            (d := ' ') hlt
          rw [hgd, hguard.1] at hm2
          exact hm2
        exact List.countP_pos_iff.mpr ⟨'@', hmem, by decide⟩
    · cases h

/-- A phone match consumes at least one digit. -/
theorem phoneMatch_weight (pw : Bool) (t : List Char) (n : Nat)
    (h : phoneMatch pw t = some n) : 1 ≤ pweight (t.take n) := by
  cases t with
  | nil => simp [phoneMatch] at h
  | cons c rest =>
    simp only [phoneMatch] at h
    split at h
    · cases h
    · split at h
      · split at h
        · rename_i d rest2
          split at h
          · rename_i hd
            rw [Option.map_eq_some'] at h
            obtain ⟨k, hk, hn⟩ := h
            subst hn
            have h2k : 2 + k = k + 1 + 1 := by omega
            rw [h2k, List.take_succ_cons, List.take_succ_cons]
            exact List.countP_pos_iff.mpr
              ⟨d, List.mem_cons_of_mem c (List.mem_cons_self d _), by simp [hd]⟩
          · cases h
        · cases h
      · split at h
        · rename_i hd
          rw [Option.map_eq_some'] at h
          obtain ⟨k, hk, hn⟩ := h
          subst hn
          have h1k : 1 + k = k + 1 := by omega
          rw [h1k, List.take_succ_cons]
          exact List.countP_pos_iff.mpr ⟨c, List.mem_cons_self c _, by simp [hd]⟩
        · cases h

/-- A card match consumes at least one digit. -/
theorem cardMatch_weight (pw : Bool) (t : List Char) (n : Nat)
    (h : cardMatch pw t = some n) : 1 ≤ pweight (t.take n) := by
  cases t with
  | nil => simp [cardMatch] at h
  | cons c rest =>
    simp only [cardMatch] at h
    split at h
    · cases h
    · split at h
      · cases h
      · rename_i hdig
        split at h
        · cases h
        · rename_i m hm
          have hn : ∃ r, n = 1 + r := by
            split at h
            · split at h
              · simp only [Option.some.injEq] at h
                exact ⟨m + min (countRun isAsciiDigit (rest.drop m)) 3, by omega⟩
              · cases h
            · simp only [Option.some.injEq] at h
              exact ⟨m + min (countRun isAsciiDigit (rest.drop m)) 3, by omega⟩
          obtain ⟨r, rfl⟩ := hn
          have h1r : 1 + r = r + 1 := by omega
          rw [h1r, List.take_succ_cons]
          refine List.countP_pos_iff.mpr ⟨c, List.mem_cons_self c _, ?_⟩
          simp only [Bool.not_eq_true'] at hdig
          simp [hdig]

/-- `redact_pii` on nonempty input is the three passes in order. -/
theorem redact_pii_eq (s : List Char) (hs : s ≠ []) :
    redact_pii s = reSub cardMatch tokCard (reSub phoneMatch tokPhone
      (reSub (fun _ t => emailMatch t) tokEmail s)) := by
  have : s.isEmpty = false := by
    cases s with
    | nil => exact absurd rfl hs
    | cons c rest => rfl
  simp [redact_pii, this]

/-- Claim C5: `redact_pii` applies the three substitutions in order
(emails, then phone runs, then card runs, with the three fixed tokens);
and for any input containing a well-formed email address (a full match of
the email pattern), the redacted output contains `[REDACTED_EMAIL]` and
does not contain the original address. -/
theorem c5_redaction (s e : List Char) (hwf : emailMatch e = some e.length)
    (hocc : e <:+: s) :
    redact_pii s = reSub cardMatch tokCard (reSub phoneMatch tokPhone
        (reSub (fun _ t => emailMatch t) tokEmail s)) ∧
      tokEmail <:+: redact_pii s ∧ ¬ e <:+: redact_pii s := by
  obtain ⟨hat, hcl, hlen2⟩ := emailMatch_full_struct e hwf
  have hbr1 : '[' ∉ e := by
    intro hm
    rcases hcl '[' hm with h | h | h | h
    · exact absurd h (by decide)
    · exact absurd h (by decide)
    · exact absurd h (by decide)
    · exact absurd h (by decide)
  have hbr2 : ']' ∉ e := by
    intro hm
    rcases hcl ']' hm with h | h | h | h
    · exact absurd h (by decide)
    · exact absurd h (by decide)
    · exact absurd h (by decide)
    · exact absurd h (by decide)
  have hene : e ≠ [] := by
    intro h
    subst h
    simp at hlen2
  have hsne : s ≠ [] := by
    intro h
    subst h
    exact hene (List.eq_nil_of_infix_nil hocc)
  have hEq := redact_pii_eq s hsne
  -- abbreviations for the three stages
  have hphone_head : ∀ pw c rest, c ∈ tokEmail → phoneMatch pw (c :: rest) = none := by
    have hfacts : ∀ c ∈ tokEmail, c ≠ '+' ∧ isAsciiDigit c = false := by decide
    intro pw c rest hc
    exact phoneMatch_none_head pw c rest (hfacts c hc).1 (hfacts c hc).2
  have hcard_head : ∀ pw c rest, c ∈ tokEmail → cardMatch pw (c :: rest) = none := by
    have hfacts : ∀ c ∈ tokEmail, isAsciiDigit c = false := by decide
    intro pw c rest hc
    exact cardMatch_none_head pw c rest (hfacts c hc)
  have hphone_cons : ∀ pw t n, phoneMatch pw t = some n → ∀ c ∈ t.take n, c ∉ tokEmail := by
    have hfacts : ∀ c ∈ tokEmail,
        ¬(c = '+' ∨ isAsciiDigit c = true ∨ isPhoneClassChar c = true) := by decide
    intro pw t n hn c hc hmem
    exact hfacts c hmem (phoneMatch_take pw t n hn c hc)
  have hcard_cons : ∀ pw t n, cardMatch pw t = some n → ∀ c ∈ t.take n, c ∉ tokEmail := by
    have hfacts : ∀ c ∈ tokEmail,
        ¬(isAsciiDigit c = true ∨ isSepChar c = true) := by decide
    intro pw t n hn c hc hmem
    exact hfacts c hmem (cardMatch_take pw t n hn c hc)
  refine ⟨hEq, ?_, ?_⟩
  · -- the token appears after the email pass and survives the other two
    obtain ⟨x, y, hxy⟩ := hocc
    have hsuf : e ++ y <:+ s := ⟨x, by rw [← List.append_assoc, hxy]⟩
    obtain ⟨m, hmatch⟩ := emailMatch_extend e e.length hwf y
    have h1 : tokEmail <:+: reSub (fun _ t => emailMatch t) tokEmail s := by
      refine reSubGo_token_of_match _ tokEmail (by intro pw pw' t; rfl)
        (fun pw t n h => emailMatch_pos t n h) s.length false s (e ++ y) (le_refl _)
        hsuf ?_
      simp [hmatch]
    have h2 : tokEmail <:+: reSub phoneMatch tokPhone
        (reSub (fun _ t => emailMatch t) tokEmail s) :=
      reSubGo_token_preserved phoneMatch tokPhone tokEmail (by decide)
        hphone_head hphone_cons _ false _ (le_refl _) h1
    have h3 : tokEmail <:+: reSub cardMatch tokCard (reSub phoneMatch tokPhone
        (reSub (fun _ t => emailMatch t) tokEmail s)) :=
      reSubGo_token_preserved cardMatch tokCard tokEmail (by decide)
        hcard_head hcard_cons _ false _ (le_refl _) h2
    rw [hEq]
    exact h3
  · -- no copy of the address survives
    rw [hEq]
    intro hcon
    have h1 : e <:+: reSub phoneMatch tokPhone
        (reSub (fun _ t => emailMatch t) tokEmail s) :=
      reSubGo_nocreate cardMatch tokCard ⟨"REDACTED_CARD".toList, by decide⟩
        (by decide) _ false _ e hat hbr1 hbr2 hlen2 hcon
    have h2 : e <:+: reSub (fun _ t => emailMatch t) tokEmail s :=
      reSubGo_nocreate phoneMatch tokPhone ⟨"REDACTED_PHONE".toList, by decide⟩
        (by decide) _ false _ e hat hbr1 hbr2 hlen2 h1
    exact emailSub_no_email e hwf s.length false s (le_refl _) h2

/-- Witness for C5 at `s = "x a@b.co y"`, `e = "a@b.co"`. -/
theorem c5_redaction_witness :
    redact_pii "x a@b.co y".toList
        = reSub cardMatch tokCard (reSub phoneMatch tokPhone
            (reSub (fun _ t => emailMatch t) tokEmail "x a@b.co y".toList)) ∧
      tokEmail <:+: redact_pii "x a@b.co y".toList ∧
      ¬ "a@b.co".toList <:+: redact_pii "x a@b.co y".toList :=
  c5_redaction "x a@b.co y".toList "a@b.co".toList (by decide) (by decide)

/-! ## Claim C6: infrastructure

The prompt built by `analyze_transcript` is `prefix ++ t` followed by
`str.replace(t, redact_pii(t))`.  When `t` contains PII (so that
`redact_pii t ≠ t`), the only occurrence of `t` in `prefix ++ t` is the
final one: an occurrence starting inside the fixed prefix would force
`t` to begin with a tail of the prefix, and the prefix text is engineered
(and checked by `decide` below) so that no PII pattern can match anywhere
in it or straddling out of it — making `t` a fixed point of `redact_pii`,
contradiction.  Likewise `t` cannot occur in `prefix ++ redact_pii t`,
because redaction strictly decreases the number of digit/`@` characters. -/

/-- Certificate that the card digit-seek fails on `x` and on every
extension `x ++ y`: a character that is neither a digit nor a separator
is reached before enough digits. -/
def seek13Blocked (needed : Nat) : List Char → Bool
  | [] => false
  | c :: rest =>
    if isAsciiDigit c then
      match needed with
      | 0 => false
      | 1 => false
      | n + 2 => seek13Blocked (n + 1) rest
    else if isSepChar c then seek13Blocked needed rest
    else true

/-- A blocked seek fails on every extension. -/
theorem seek13Blocked_append :
    ∀ (x : List Char) (needed : Nat), seek13Blocked needed x = true →
      ∀ y, seek13 needed (x ++ y) = none := by
  intro x
  induction x with
  | nil => intro needed h y; simp [seek13Blocked] at h
  | cons c rest ih =>
    intro needed h y
    simp only [seek13Blocked] at h
    show seek13 needed (c :: (rest ++ y)) = none
    by_cases hd : isAsciiDigit c
    · rw [if_pos hd] at h
      cases needed with
      | zero => simp at h
      | succ m =>
        cases m with
        | zero => simp at h
        | succ n =>
          simp [seek13, hd, ih (n + 1) h y]
    · rw [if_neg hd] at h
      by_cases hs : isSepChar c
      · rw [if_pos hs] at h
        simp [seek13, hd, hs, ih needed h y]
      · simp [seek13, hd, hs]

/-- A blocked seek fails on every prefix as well. -/
theorem seek13Blocked_pfx :
    ∀ (x : List Char) (needed : Nat), seek13Blocked needed x = true →
      ∀ t, t <+: x → seek13 needed t = none := by
  intro x
  induction x with
  | nil => intro needed h; simp [seek13Blocked] at h
  | cons c rest ih =>
    intro needed h t ht
    cases t with
    | nil => rfl
    | cons c' t' =>
      rw [List.cons_prefix_cons] at ht
      obtain ⟨he, ht'⟩ := ht
      subst he
      simp only [seek13Blocked] at h
      by_cases hd : isAsciiDigit c'
      · rw [if_pos hd] at h
        cases needed with
        | zero => simp at h
        | succ m =>
          cases m with
          | zero => simp at h
          | succ n =>
            simp [seek13, hd, ih (n + 1) h t' ht']
      · rw [if_neg hd] at h
        by_cases hs : isSepChar c'
        · rw [if_pos hs] at h
          simp [seek13, hd, hs, ih needed h t' ht']
        · simp [seek13, hd, hs]

/-- Index into a dropped list. -/
theorem getD_drop (S : List Char) (q p : Nat) :
    (S.drop q).getD p ' ' = S.getD (q + p) ' ' := by
  rw [List.getD_eq_getElem?_getD, List.getD_eq_getElem?_getD, List.getElem?_drop]

/-- On a nonempty list the scanner's carried word-boundary state does not
depend on its initial value. -/
theorem prevAfter_indep (pw pw' : Bool) :
    ∀ u : List Char, u ≠ [] → prevAfter pw u = prevAfter pw' u := by
  intro u
  cases u with
  | nil => intro h; exact absurd rfl h
  | cons c u' => intro _; rw [prevAfter_cons, prevAfter_cons]

/-- The carried state after an append. -/
theorem prevAfter_append (pw : Bool) (u v : List Char) :
    prevAfter pw (u ++ v) = prevAfter (prevAfter pw u) v := by
  induction u generalizing pw with
  | nil => rfl
  | cons c u' ih => rw [List.cons_append, prevAfter_cons, prevAfter_cons, ih]

/-- Dropping from a list that ends in a non-word character keeps that
property visible to the scanner state. -/
theorem prevAfter_drop_false {S : List Char} (h : prevAfter false S = false)
    {q : Nat} (hq : q < S.length) : prevAfter false (S.drop q) = false := by
  have hne : S.drop q ≠ [] := by
    intro hcon
    have hlen := congrArg List.length hcon
    rw [List.length_drop] at hlen
    simp at hlen
    omega
  have hsplit : prevAfter false S
      = prevAfter (prevAfter false (S.take q)) (S.drop q) := by
    conv_lhs => rw [← List.take_append_drop q S]
    rw [prevAfter_append]
  rw [prevAfter_indep false (prevAfter false (S.take q)) (S.drop q) hne, ← hsplit]
  exact h

/-- A word is *good* when no PII pattern can start anywhere in it, even
allowing arbitrary text to follow: it has no `@` (emails need one), no
`+`, and after every digit the phone-class run is shorter than 7 and
stays inside the word, and the card seek is blocked inside the word. -/
def goodW (w : List Char) : Prop :=
  '@' ∉ w ∧ '+' ∉ w ∧
  ∀ i, i < w.length → isAsciiDigit (w.getD i ' ') = true →
    countRun isPhoneClassChar (w.drop (i + 1)) < 7 ∧
    seek13 12 (w.drop (i + 1)) = none

/-- A nonempty suffix determines a position in the ambient list. -/
theorem suffix_cons_structure {w : List Char} {c : Char} {rest : List Char}
    (h : c :: rest <:+ w) :
    ∃ i, i < w.length ∧ w.getD i ' ' = c ∧ w.drop (i + 1) = rest := by
  obtain ⟨pre, hpre⟩ := h
  refine ⟨pre.length, ?_, ?_, ?_⟩
  · rw [← hpre, List.length_append, List.length_cons]
    omega
  · rw [← hpre, List.getD_append_right pre (c :: rest) ' ' pre.length (le_refl _)]
    simp
  · rw [← hpre, List.drop_append 1]
    rfl

/-- Below 7 class characters the phone quantifier cannot be satisfied. -/
theorem phoneFind_none_of_lt7 (tail : List Char) {k : Nat} (hk : k < 7) :
    phoneFind tail k = none := by
  cases k with
  | zero => rfl
  | succ m =>
    have h7 : ¬ (7 ≤ m + 1) := by omega
    simp [phoneFind, h7]

/-- The email matcher fails at every position of a good word. -/
theorem emailMatch_none_of_goodW {w : List Char} (hw : goodW w)
    (t : List Char) (ht : t <:+ w) : emailMatch t = none := by
  apply emailMatch_none_no_at
  intro hat
  exact hw.1 (ht.sublist.subset hat)

/-- The phone matcher fails at every position of a good word. -/
theorem phoneMatch_none_of_goodW {w : List Char} (hw : goodW w) (pw : Bool)
    (t : List Char) (ht : t <:+ w) : phoneMatch pw t = none := by
  cases t with
  | nil => rfl
  | cons c rest =>
    have hplus : c ≠ '+' := by
      intro hc
      apply hw.2.1
      apply ht.sublist.subset
      rw [← hc]
      exact List.mem_cons_self c rest
    by_cases hd : isAsciiDigit c
    · obtain ⟨i, hi, hgd, hdrop⟩ := suffix_cons_structure ht
      have hc := hw.2.2 i hi (by rw [hgd]; exact hd)
      rw [hdrop] at hc
      have hpt : phoneTail rest = none := phoneFind_none_of_lt7 rest hc.1
      simp [phoneMatch, hplus, hd, hpt]
    · simp [phoneMatch, hplus, hd]

/-- The card matcher fails at every position of a good word. -/
theorem cardMatch_none_of_goodW {w : List Char} (hw : goodW w) (pw : Bool)
    (t : List Char) (ht : t <:+ w) : cardMatch pw t = none := by
  cases t with
  | nil => rfl
  | cons c rest =>
    by_cases hd : isAsciiDigit c
    · obtain ⟨i, hi, hgd, hdrop⟩ := suffix_cons_structure ht
      have hc := hw.2.2 i hi (by rw [hgd]; exact hd)
      rw [hdrop] at hc
      simp [cardMatch, hd, hc.2]
    · simp [cardMatch, hd]

/-- A good word is a fixed point of `redact_pii`. -/
theorem goodW_redact_id {w : List Char} (hw : goodW w) : redact_pii w = w := by
  by_cases hemp : w = []
  · subst hemp; rfl
  · rw [redact_pii_eq w hemp]
    have h1 : reSub (fun _ t => emailMatch t) tokEmail w = w :=
      reSubGo_id _ _ w.length false w
        (fun _ t ht => emailMatch_none_of_goodW hw t ht)
    have h2 : reSub phoneMatch tokPhone w = w :=
      reSubGo_id _ _ w.length false w
        (fun pw' t ht => phoneMatch_none_of_goodW hw pw' t ht)
    have h3 : reSub cardMatch tokCard w = w :=
      reSubGo_id _ _ w.length false w
        (fun pw' t ht => cardMatch_none_of_goodW hw pw' t ht)
    rw [h1, h2, h3]

/-- The three-pass decomposition holds for every input (the empty input
maps to itself on both sides). -/
theorem redact_pii_eq_all (s : List Char) :
    redact_pii s = reSub cardMatch tokCard (reSub phoneMatch tokPhone
      (reSub (fun _ t => emailMatch t) tokEmail s)) := by
  cases s with
  | nil => rfl
  | cons c rest => exact redact_pii_eq (c :: rest) (by simp)

/-- Decidable certificate on a fixed prompt text `S`: it is nonempty,
ends in a non-word character, contains no `@` or `+`, every local-part
run inside it terminates inside `S` at a non-`@` character, and every
digit inside it has its phone-class run bounded below 7 and terminated
inside `S`, with the card seek blocked inside `S`.  These facts make all
three matchers fail at every position of `S`, whatever text follows. -/
def promptSafe (S : List Char) : Prop :=
  S ≠ [] ∧ prevAfter false S = false ∧
  (∀ c ∈ S, c ≠ '@' ∧ c ≠ '+') ∧
  (∀ p, p < S.length →
    (countRun isLocalChar (S.drop p) < (S.drop p).length ∧
      (S.drop p).getD (countRun isLocalChar (S.drop p)) ' ' ≠ '@') ∧
    (isAsciiDigit (S.getD p ' ') = true →
      countRun isPhoneClassChar (S.drop (p + 1)) < 7 ∧
      countRun isPhoneClassChar (S.drop (p + 1)) < (S.drop (p + 1)).length ∧
      seek13Blocked 12 (S.drop (p + 1)) = true))

instance (S : List Char) : Decidable (promptSafe S) := by
  unfold promptSafe
  infer_instance

/-- The fixed summarization prompt text is safe. -/
theorem promptSafe_summary : promptSafe summaryPrefix := by decide

/-- The fixed sentiment prompt text is safe. -/
theorem promptSafe_sentiment : promptSafe sentimentPrefix := by decide

/-- Safety is inherited by every tail of the prompt text. -/
theorem promptSafe_drop {S : List Char} (hS : promptSafe S) {q : Nat}
    (hq : q < S.length) : promptSafe (S.drop q) := by
  obtain ⟨hne, hlast, hchar, hpos⟩ := hS
  refine ⟨?_, prevAfter_drop_false hlast hq, ?_, ?_⟩
  · intro hcon
    have hlen := congrArg List.length hcon
    rw [List.length_drop] at hlen
    simp at hlen
    omega
  · intro c hc
    exact hchar c (List.mem_of_mem_drop hc)
  · intro p hp
    have hplen : q + p < S.length := by
      rw [List.length_drop] at hp
      omega
    have hdd : (S.drop q).drop p = S.drop (q + p) := by rw [List.drop_drop]
    have hdd1 : (S.drop q).drop (p + 1) = S.drop (q + p + 1) := by
      rw [List.drop_drop, ← Nat.add_assoc]
    obtain ⟨⟨hl1, hl2⟩, hdig⟩ := hpos (q + p) hplen
    refine ⟨⟨?_, ?_⟩, ?_⟩
    · rw [hdd]; exact hl1
    · rw [hdd]; exact hl2
    · intro hdigc
      rw [getD_drop S q p] at hdigc
      obtain ⟨h7, hlen7, hblk⟩ := hdig hdigc
      rw [hdd1]
      exact ⟨h7, hlen7, hblk⟩

/-- With the run terminated inside `u` at a non-`@` character, the email
matcher fails on every extension of `u`. -/
theorem emailMatch_none_of_cert {u : List Char}
    (hlen : countRun isLocalChar u < u.length)
    (hat : u.getD (countRun isLocalChar u) ' ' ≠ '@') (y : List Char) :
    emailMatch (u ++ y) = none := by
  have hcr : countRun isLocalChar (u ++ y) = countRun isLocalChar u :=
    countRun_append_left _ u y hlen
  have hgd : (u ++ y).getD (countRun isLocalChar u) ' '
      = u.getD (countRun isLocalChar u) ' ' :=
    List.getD_append u y ' ' (countRun isLocalChar u) hlen
  by_cases h0 : countRun isLocalChar u = 0
  · simp only [emailMatch, hcr]
    rw [if_pos h0]
  · have hcond : ¬ ((decide ((u ++ y).getD (countRun isLocalChar u) ' ' = '@') &&
        decide (countRun isLocalChar u < (u ++ y).length)) = true) := by
      rw [hgd]
      simp only [Bool.and_eq_true, decide_eq_true_eq, not_and]
      intro hA
      exact absurd hA hat
    simp only [emailMatch, hcr]
    rw [if_neg h0, if_neg hcond]

/-- With the class run bounded below 7 and terminated inside `rest`, the
phone matcher fails on every extension. -/
theorem phoneMatch_none_of_cert {c : Char} {rest : List Char}
    (hplus : c ≠ '+')
    (hdig : isAsciiDigit c = true →
      countRun isPhoneClassChar rest < 7 ∧
      countRun isPhoneClassChar rest < rest.length)
    (y : List Char) (pw : Bool) :
    phoneMatch pw ((c :: rest) ++ y) = none := by
  rw [List.cons_append]
  by_cases hd : isAsciiDigit c
  · obtain ⟨h7, hlen⟩ := hdig hd
    have hcr : countRun isPhoneClassChar (rest ++ y) = countRun isPhoneClassChar rest :=
      countRun_append_left _ rest y hlen
    have hpt : phoneTail (rest ++ y) = none := by
      show phoneFind (rest ++ y) (countRun isPhoneClassChar (rest ++ y)) = none
      rw [hcr]
      exact phoneFind_none_of_lt7 _ h7
    simp [phoneMatch, hplus, hd, hpt]
  · simp [phoneMatch, hplus, hd]

/-- With the seek blocked inside `rest`, the card matcher fails on every
extension. -/
theorem cardMatch_none_of_cert {c : Char} {rest : List Char}
    (hdig : isAsciiDigit c = true → seek13Blocked 12 rest = true)
    (y : List Char) (pw : Bool) :
    cardMatch pw ((c :: rest) ++ y) = none := by
  rw [List.cons_append]
  by_cases hd : isAsciiDigit c
  · have hseek : seek13 12 (rest ++ y) = none :=
      seek13Blocked_append rest 12 (hdig hd) y
    simp [cardMatch, hd, hseek]
  · simp [cardMatch, hd]

/-- All three matchers fail at every position of a safe prompt text,
whatever text follows. -/
theorem promptSafe_drop_fail {S : List Char} (hS : promptSafe S) {q : Nat}
    (hq : q < S.length) (y : List Char) :
    emailMatch (S.drop q ++ y) = none ∧
    (∀ pw, phoneMatch pw (S.drop q ++ y) = none) ∧
    (∀ pw, cardMatch pw (S.drop q ++ y) = none) := by
  obtain ⟨hne, hlast, hchar, hpos⟩ := hS
  obtain ⟨⟨hl1, hl2⟩, hdigcert⟩ := hpos q hq
  cases hu : S.drop q with
  | nil =>
    have hlen := congrArg List.length hu
    rw [List.length_drop] at hlen
    simp at hlen
    omega
  | cons c rest =>
    rw [hu] at hl1 hl2
    have hcS : c ∈ S := by
      have hm : c ∈ S.drop q := by rw [hu]; exact List.mem_cons_self c rest
      exact (List.drop_suffix q S).sublist.subset hm
    have hplus : c ≠ '+' := (hchar c hcS).2
    have hrest : rest = S.drop (q + 1) := by
      have hdd : (S.drop q).drop 1 = S.drop (q + 1) := by rw [List.drop_drop]
      rw [hu] at hdd
      simpa using hdd
    have hcgd : S.getD q ' ' = c := by
      have hg := getD_drop S q 0
      rw [hu] at hg
      simpa using hg.symm
    refine ⟨?_, ?_, ?_⟩
    · exact emailMatch_none_of_cert hl1 hl2 y
    · intro pw
      refine phoneMatch_none_of_cert hplus (fun hd => ?_) y pw
      obtain ⟨h7, hlen7, _⟩ := hdigcert (by rw [hcgd]; exact hd)
      rw [← hrest] at h7 hlen7
      exact ⟨h7, hlen7⟩
    · intro pw
      refine cardMatch_none_of_cert (fun hd => ?_) y pw
      obtain ⟨_, _, hblk⟩ := hdigcert (by rw [hcgd]; exact hd)
      rw [← hrest] at hblk
      exact hblk

/-- A substitution pass copies a region whose positions can never start a
match, whatever follows. -/
theorem reSub_prepend (matcher : Bool → List Char → Option Nat) (tok : List Char)
    (S u : List Char) (hlast : prevAfter false S = false)
    (hfail : ∀ pw t, t <:+ S → t ≠ [] → matcher pw (t ++ u) = none) :
    reSub matcher tok (S ++ u) = S ++ reSub matcher tok u := by
  show reSubGo matcher tok (S ++ u).length false (S ++ u)
      = S ++ reSubGo matcher tok u.length false u
  rw [reSubGo_skip matcher tok S (S ++ u).length u.length false u
    (by simp) (le_refl _) hfail, hlast]

/-- `redact_pii` distributes over prepending a safe prompt text. -/
theorem redact_prepend {S : List Char} (hS : promptSafe S) (u : List Char) :
    redact_pii (S ++ u) = S ++ redact_pii u := by
  have hlast : prevAfter false S = false := hS.2.1
  have hfail : ∀ (v : List Char) (pw : Bool) (t : List Char), t <:+ S → t ≠ [] →
      emailMatch (t ++ v) = none ∧ phoneMatch pw (t ++ v) = none ∧
      cardMatch pw (t ++ v) = none := by
    intro v pw t ht htne
    obtain ⟨q, hq, rfl⟩ : ∃ q, q < S.length ∧ t = S.drop q := by
      obtain ⟨pre, hpre⟩ := ht
      refine ⟨pre.length, ?_, by rw [← hpre, List.drop_left]⟩
      rw [← hpre, List.length_append]
      have hp : 0 < t.length := List.length_pos.mpr htne
      omega
    obtain ⟨h1, h2, h3⟩ := promptSafe_drop_fail hS hq v
    exact ⟨h1, h2 pw, h3 pw⟩
  rw [redact_pii_eq_all (S ++ u), redact_pii_eq_all u]
  rw [reSub_prepend (fun _ t => emailMatch t) tokEmail S u hlast
    (fun pw t ht htne => (hfail u pw t ht htne).1)]
  rw [reSub_prepend phoneMatch tokPhone S
    (reSub (fun _ t => emailMatch t) tokEmail u) hlast
    (fun pw t ht htne => (hfail _ pw t ht htne).2.1)]
  rw [reSub_prepend cardMatch tokCard S
    (reSub phoneMatch tokPhone (reSub (fun _ t => emailMatch t) tokEmail u)) hlast
    (fun pw t ht htne => (hfail _ pw t ht htne).2.2)]

/-- Every contiguous segment of a safe prompt text is a good word. -/
theorem goodW_take_drop {S : List Char} (hS : promptSafe S) (q m : Nat) :
    goodW ((S.drop q).take m) := by
  obtain ⟨hne, hlast, hchar, hpos⟩ := hS
  refine ⟨?_, ?_, ?_⟩
  · intro hmem
    exact (hchar '@' ((( List.take_prefix m (S.drop q)).sublist.trans
      (List.drop_suffix q S).sublist).subset hmem)).1 rfl
  · intro hmem
    exact (hchar '+' ((( List.take_prefix m (S.drop q)).sublist.trans
      (List.drop_suffix q S).sublist).subset hmem)).2 rfl
  · intro i hi hd
    have hi' : i < m ∧ i < S.length - q := by
      rw [List.length_take, List.length_drop] at hi
      omega
    have hqi : q + i < S.length := by omega
    have hgd : ((S.drop q).take m).getD i ' ' = S.getD (q + i) ' ' := by
      rw [List.getD_eq_getElem?_getD, List.getElem?_take_of_lt hi'.1,
        ← List.getD_eq_getElem?_getD, getD_drop]
    obtain ⟨h7, hlen7, hblk⟩ := (hpos (q + i) hqi).2 (by rw [← hgd]; exact hd)
    have hpre : ((S.drop q).take m).drop (i + 1) <+: S.drop (q + i + 1) := by
      rw [List.drop_take, List.drop_drop]
      exact List.take_prefix _ _
    constructor
    · exact lt_of_le_of_lt (countRun_prefix_le _ _ _ hpre) h7
    · exact seek13Blocked_pfx (S.drop (q + i + 1)) 12 hblk _ hpre

/-- Prepending a safe prompt text to a good word gives a good word. -/
theorem goodW_prepend {S : List Char} (hS : promptSafe S) {w : List Char}
    (hw : goodW w) : goodW (S ++ w) := by
  obtain ⟨hne, hlast, hchar, hpos⟩ := hS
  obtain ⟨hw1, hw2, hw3⟩ := hw
  refine ⟨?_, ?_, ?_⟩
  · intro h
    rcases List.mem_append.mp h with h | h
    · exact (hchar '@' h).1 rfl
    · exact hw1 h
  · intro h
    rcases List.mem_append.mp h with h | h
    · exact (hchar '+' h).2 rfl
    · exact hw2 h
  · intro i hi hd
    rcases Nat.lt_or_ge i S.length with hlt | hge
    · have hgd : (S ++ w).getD i ' ' = S.getD i ' ' :=
        List.getD_append S w ' ' i hlt
      obtain ⟨h7, hlen7, hblk⟩ := (hpos i hlt).2 (by rw [← hgd]; exact hd)
      have hdrop : (S ++ w).drop (i + 1) = S.drop (i + 1) ++ w :=
        List.drop_append_of_le_length (by omega)
      rw [hdrop]
      constructor
      · rw [countRun_append_left _ _ _ hlen7]
        exact h7
      · exact seek13Blocked_append _ _ hblk w
    · obtain ⟨j, rfl⟩ : ∃ j, i = S.length + j := ⟨i - S.length, by omega⟩
      have hj : j < w.length := by
        rw [List.length_append] at hi
        omega
      have hgd : (S ++ w).getD (S.length + j) ' ' = w.getD j ' ' := by
        rw [List.getD_append_right S w ' ' (S.length + j) (by omega)]
        simp
      have hdrop : (S ++ w).drop (S.length + j + 1) = w.drop (j + 1) := by
        have hidx : S.length + j + 1 = S.length + (j + 1) := by omega
        rw [hidx, List.drop_append]
      rw [hdrop]
      exact hw3 j hj (by rw [← hgd]; exact hd)

/-- A word that reproduces itself as the initial segment of a safe prompt
text followed by itself is a good word (strong induction on length: the
word is either a segment of the prompt text or the prompt text followed
by a shorter such word). -/
theorem fix_take_self {S : List Char} (hS : promptSafe S) :
    ∀ (n : Nat) (u : List Char), u.length ≤ n →
      u = (S ++ u).take u.length → goodW u := by
  intro n
  induction n with
  | zero =>
    intro u hlen _
    have hu : u = [] := List.length_eq_zero.mp (Nat.le_zero.mp hlen)
    subst hu
    refine ⟨by simp, by simp, ?_⟩
    intro i hi
    simp at hi
  | succ n ih =>
    intro u hlen hfix
    by_cases hle : u.length ≤ S.length
    · have hu : u = S.take u.length :=
        hfix.trans (List.take_append_of_le_length hle)
      rw [hu]
      have hseg := goodW_take_drop hS 0 u.length
      rwa [List.drop_zero] at hseg
    · push_neg at hle
      have hSpos : 0 < S.length := List.length_pos.mpr hS.1
      have hfix' : u = S ++ u.take (u.length - S.length) := by
        conv_lhs => rw [hfix]
        rw [List.take_append_eq_append_take, List.take_of_length_le (by omega)]
      have hwlen : (u.take (u.length - S.length)).length = u.length - S.length := by
        rw [List.length_take]
        omega
      have hwfix : u.take (u.length - S.length)
          = (S ++ u.take (u.length - S.length)).take
              (u.take (u.length - S.length)).length := by
        rw [hwlen]
        conv_rhs => rw [← hfix']
      have hgw : goodW (u.take (u.length - S.length)) :=
        ih (u.take (u.length - S.length)) (by rw [hwlen]; omega) hwfix
      rw [hfix']
      exact goodW_prepend hS hgw

/-- A word that reproduces itself as the initial segment of a safe prompt
text followed by its own redaction is a good word, and hence equal to its
redaction. -/
theorem fix_take_redact {S : List Char} (hS : promptSafe S) :
    ∀ (n : Nat) (u : List Char), u.length ≤ n →
      u = (S ++ redact_pii u).take u.length → goodW u ∧ redact_pii u = u := by
  intro n
  induction n with
  | zero =>
    intro u hlen _
    have hu : u = [] := List.length_eq_zero.mp (Nat.le_zero.mp hlen)
    subst hu
    refine ⟨⟨by simp, by simp, ?_⟩, rfl⟩
    intro i hi
    simp at hi
  | succ n ih =>
    intro u hlen hfix
    by_cases hle : u.length ≤ S.length
    · have hu : u = S.take u.length :=
        hfix.trans (List.take_append_of_le_length hle)
      have hgw : goodW u := by
        rw [hu]
        have hseg := goodW_take_drop hS 0 u.length
        rwa [List.drop_zero] at hseg
      exact ⟨hgw, goodW_redact_id hgw⟩
    · push_neg at hle
      have hSpos : 0 < S.length := List.length_pos.mpr hS.1
      have hrlen : u.length - S.length ≤ (redact_pii u).length := by
        have hc := congrArg List.length hfix
        rw [List.length_take, List.length_append] at hc
        omega
      have hfix' : u = S ++ (redact_pii u).take (u.length - S.length) := by
        conv_lhs => rw [hfix]
        rw [List.take_append_eq_append_take, List.take_of_length_le (by omega)]
      have hred : redact_pii u
          = S ++ redact_pii ((redact_pii u).take (u.length - S.length)) := by
        conv_lhs => rw [hfix']
        exact redact_prepend hS _
      have hwlen : ((redact_pii u).take (u.length - S.length)).length
          = u.length - S.length := by
        rw [List.length_take]
        omega
      have hwfix : (redact_pii u).take (u.length - S.length)
          = (S ++ redact_pii ((redact_pii u).take (u.length - S.length))).take
              ((redact_pii u).take (u.length - S.length)).length := by
        rw [hwlen]
        conv_rhs => rw [← hred]
      obtain ⟨hgw, hrw⟩ := ih ((redact_pii u).take (u.length - S.length))
        (by rw [hwlen]; omega) hwfix
      have hgu : goodW u := by
        rw [hfix']
        exact goodW_prepend hS hgw
      refine ⟨hgu, ?_⟩
      rw [hred, hrw, ← hfix']

/-- Weight bound for one pass, stated on `reSub`. -/
theorem reSub_pweight_le (matcher : Bool → List Char → Option Nat)
    (tok : List Char) (htok : pweight tok = 0) (s : List Char) :
    pweight (reSub matcher tok s) ≤ pweight s :=
  reSubGo_pweight_le matcher tok htok s.length false s

/-- Strict weight decrease for one changing pass, stated on `reSub`. -/
theorem reSub_pweight_lt_of_ne (matcher : Bool → List Char → Option Nat)
    (tok : List Char) (htok : pweight tok = 0)
    (hmw : ∀ pw t n, matcher pw t = some n → 1 ≤ pweight (t.take n))
    (s : List Char) (h : reSub matcher tok s ≠ s) :
    pweight (reSub matcher tok s) < pweight s :=
  reSubGo_pweight_lt matcher tok htok hmw s.length false s h

/-- A changing redaction strictly decreases the digit/`@` weight. -/
theorem redact_pweight_lt (t : List Char) (h : redact_pii t ≠ t) :
    pweight (redact_pii t) < pweight t := by
  have htokE : pweight tokEmail = 0 := by decide
  have htokP : pweight tokPhone = 0 := by decide
  have htokC : pweight tokCard = 0 := by decide
  rw [redact_pii_eq_all] at h ⊢
  by_cases h1 : reSub (fun _ s => emailMatch s) tokEmail t = t
  · rw [h1] at h ⊢
    by_cases h2 : reSub phoneMatch tokPhone t = t
    · rw [h2] at h ⊢
      exact reSub_pweight_lt_of_ne cardMatch tokCard htokC
        (fun pw s n hm => cardMatch_weight pw s n hm) t h
    · have hlt := reSub_pweight_lt_of_ne phoneMatch tokPhone htokP
        (fun pw s n hm => phoneMatch_weight pw s n hm) t h2
      have hle := reSub_pweight_le cardMatch tokCard htokC
        (reSub phoneMatch tokPhone t)
      omega
  · have hlt := reSub_pweight_lt_of_ne (fun _ s => emailMatch s) tokEmail htokE
      (fun pw s n hm => emailMatch_weight s n hm) t h1
    have hle1 := reSub_pweight_le phoneMatch tokPhone htokP
      (reSub (fun _ s => emailMatch s) tokEmail t)
    have hle2 := reSub_pweight_le cardMatch tokCard htokC
      (reSub phoneMatch tokPhone (reSub (fun _ s => emailMatch s) tokEmail t))
    omega

/-- `pyReplaceGo` on the empty list. -/
theorem pyReplaceGo_nil (old new : List Char) (fuel : Nat) :
    pyReplaceGo old new fuel [] = [] := by
  cases fuel <;> rfl

/-- When the only occurrence of `old` in `P ++ old` is the final one, the
replacement loop copies `P` and replaces that occurrence. -/
theorem pyReplaceGo_append_self (old new : List Char) (hne : old ≠ []) :
    ∀ (P : List Char) (fuel : Nat), P.length + old.length ≤ fuel →
      (∀ q, q < P.length → ¬ old <+: (P ++ old).drop q) →
      pyReplaceGo old new fuel (P ++ old) = P ++ new := by
  intro P
  induction P with
  | nil =>
    intro fuel hfuel _
    cases old with
    | nil => exact absurd rfl hne
    | cons c rest =>
      cases fuel with
      | zero => simp at hfuel
      | succ f =>
        show pyReplaceGo (c :: rest) new (f + 1) (c :: rest) = new
        simp only [pyReplaceGo]
        rw [if_pos ( List.isPrefixOf_iff_prefix.mpr ( List.prefix_refl (c :: rest)))]
        rw [List.drop_length, pyReplaceGo_nil, List.append_nil]
  | cons p P' ih =>
    intro fuel hfuel hno
    cases fuel with
    | zero =>
      rw [List.length_cons] at hfuel
      omega
    | succ f =>
      have hnpre : ¬ (old.isPrefixOf (p :: (P' ++ old)) = true) := by
        rw [ List.isPrefixOf_iff_prefix]
        have h0 := hno 0 (by simp)
        rw [List.drop_zero, List.cons_append] at h0
        exact h0
      show pyReplaceGo old new (f + 1) (p :: (P' ++ old)) = p :: (P' ++ new)
      simp only [pyReplaceGo]
      rw [if_neg hnpre]
      have hfuel' : P'.length + old.length ≤ f := by
        rw [List.length_cons] at hfuel
        omega
      have hno' : ∀ q, q < P'.length → ¬ old <+: (P' ++ old).drop q := by
        intro q hq
        have h1 := hno (q + 1) (by rw [List.length_cons]; omega)
        rw [List.cons_append, List.drop_succ_cons] at h1
        exact h1
      rw [ih f hfuel' hno']

/-- `str.replace` when the only occurrence of `old` is the final one. -/
theorem pyReplace_unique (P old new : List Char) (hne : old ≠ [])
    (hno : ∀ q, q < P.length → ¬ old <+: (P ++ old).drop q) :
    pyReplace (P ++ old) old new = P ++ new := by
  have hie : old.isEmpty = false := by
    cases old with
    | nil => exact absurd rfl hne
    | cons a l => rfl
  unfold pyReplace
  rw [hie]
  rw [if_neg (by simp)]
  exact pyReplaceGo_append_self old new hne P (P ++ old).length (by simp) hno

/-- The built prompt for a PII-carrying transcript `t` and a safe fixed
prompt text `P`: the `str.replace` hits exactly the trailing occurrence
of `t`, so the prompt is `P ++ redact_pii t`, and `t` does not occur in
it — not inside `P ++ t`'s prefix part (that would make `t` a redaction
fixed point) and not overlapping the redacted copy (weight argument). -/
theorem sentPrompt_spec {P t : List Char} (hP : promptSafe P)
    (hpii : redact_pii t ≠ t) :
    sentPrompt P t = P ++ redact_pii t ∧ ¬ t <:+: sentPrompt P t := by
  have htne : t ≠ [] := by
    intro h
    rw [h] at hpii
    exact hpii rfl
  have hno : ∀ q, q < P.length → ¬ t <+: (P ++ t).drop q := by
    intro q hq hpre2
    rw [List.drop_append_of_le_length (le_of_lt hq)] at hpre2
    have hfix := List.prefix_iff_eq_take.mp hpre2
    have hgw : goodW t :=
      fix_take_self (promptSafe_drop hP hq) t.length t (le_refl _) hfix
    exact hpii (goodW_redact_id hgw)
  have heq : sentPrompt P t = P ++ redact_pii t :=
    pyReplace_unique P t (redact_pii t) htne hno
  refine ⟨heq, ?_⟩
  rw [heq]
  intro hocc
  obtain ⟨x, z, hxz⟩ := hocc
  have hpre2 : t <+: (P ++ redact_pii t).drop x.length := by
    rw [← hxz, List.append_assoc, List.drop_left]
    exact List.prefix_append t z
  rcases Nat.lt_or_ge x.length P.length with hlt | hge
  · rw [List.drop_append_of_le_length (le_of_lt hlt)] at hpre2
    have hfix := List.prefix_iff_eq_take.mp hpre2
    obtain ⟨_, hrt⟩ :=
      fix_take_redact (promptSafe_drop hP hlt) t.length t (le_refl _) hfix
    exact hpii hrt
  · have hdrop : (P ++ redact_pii t).drop x.length
        = (redact_pii t).drop (x.length - P.length) := by
      obtain ⟨j, hj⟩ : ∃ j, x.length = P.length + j :=
        ⟨x.length - P.length, by omega⟩
      rw [hj, List.drop_append]
      congr 1
      omega
    rw [hdrop] at hpre2
    have hinf : t <:+: redact_pii t :=
      hpre2.isInfix.trans (List.drop_suffix _ _).isInfix
    have hlt2 : pweight (redact_pii t) < pweight t := redact_pweight_lt t hpii
    have hle := pweight_infix_le hinf
    omega

/-- Claim C6: for every transcript whose size-limited text contains
redactable PII (so its redaction differs from it), the literal prompts
sent outward are exactly the fixed prompt text followed by the redacted
copy — the summarization prompt alone if that call fails, otherwise both
it and the sentiment prompt — and no sent prompt contains the
un-redacted (size-limited) transcript; while on success the returned
result carries the original size-limited transcript (with the truncation
marker appended exactly when truncation occurred) and the persisted row
carries the original size-limited transcript. -/
theorem c6_redacted_prompts (maxChars : Nat)
    (groq : List Char → Except PyErr (List Char)) (timestamp : List Char)
    (file : Option (List LogRow)) (s : List Char)
    (hpii : redact_pii (within_size_limit maxChars s)
      ≠ within_size_limit maxChars s) :
    ((analyze_transcript maxChars groq timestamp file s).prompts
        = [summaryPrefix ++ redact_pii (within_size_limit maxChars s)] ∨
      (analyze_transcript maxChars groq timestamp file s).prompts
        = [summaryPrefix ++ redact_pii (within_size_limit maxChars s),
           sentimentPrefix ++ redact_pii (within_size_limit maxChars s)]) ∧
    (∀ p ∈ (analyze_transcript maxChars groq timestamp file s).prompts,
      ¬ within_size_limit maxChars s <:+: p) ∧
    (∀ r, (analyze_transcript maxChars groq timestamp file s).result
        = .ok r →
      r.transcript = within_size_limit maxChars s ++
        (if s.length != (within_size_limit maxChars s).length
         then TRUNC_MARKER else []) ∧
      (analyze_transcript maxChars groq timestamp file s).file
        = some (file.getD [headerRow]
            ++ [[within_size_limit maxChars s, r.summary, r.sentiment,
                 timestamp]])) := by
  have hse : s.isEmpty = false := by
    cases s with
    | nil =>
      exfalso
      apply hpii
      have h0 : within_size_limit maxChars ([] : List Char) = [] := by
        simp [within_size_limit]
      rw [h0]
      rfl
    | cons c rest => rfl
  have hsum := sentPrompt_spec promptSafe_summary hpii
  have hsen := sentPrompt_spec promptSafe_sentiment hpii
  have hpr : (analyze_transcript maxChars groq timestamp file s).prompts
      = [sentPrompt summaryPrefix (within_size_limit maxChars s)] ∨
      (analyze_transcript maxChars groq timestamp file s).prompts
      = [sentPrompt summaryPrefix (within_size_limit maxChars s),
         sentPrompt sentimentPrefix (within_size_limit maxChars s)] := by
    rcases analyze_transcript_cases maxChars groq timestamp file s with ⟨he, _⟩ |
      ⟨_, ⟨e, _, heq⟩ | ⟨sm, e, _, _, heq⟩ | ⟨sm, se, _, _, heq⟩⟩
    · rw [he] at hse; cases hse
    · exact Or.inl (by rw [heq])
    · exact Or.inr (by rw [heq])
    · exact Or.inr (by rw [heq])
  refine ⟨?_, ?_, ?_⟩
  · rcases hpr with h | h
    · exact Or.inl (by rw [h, hsum.1])
    · exact Or.inr (by rw [h, hsum.1, hsen.1])
  · intro p hp
    rcases hpr with h | h
    · rw [h] at hp
      rw [List.mem_singleton] at hp
      subst hp
      exact hsum.2
    · rw [h] at hp
      rcases List.mem_cons.mp hp with hp1 | hp'
      · subst hp1
        exact hsum.2
      · rcases List.mem_cons.mp hp' with hp2 | hp''
        · subst hp2
          exact hsen.2
        · simp at hp''
  · intro r h
    exact ⟨(analyze_ok_spec maxChars groq timestamp file s r h).1,
      (analyze_ok_spec maxChars groq timestamp file s r h).2.2.1⟩

/-- Witness for C6 at a concrete PII-carrying transcript. -/
theorem c6_redacted_prompts_witness :
    (((analyze_transcript 100 (fun _ => Except.ok ("ok".toList))
          ("ts".toList) none ("a@b.co x".toList)).prompts
        = [summaryPrefix ++ redact_pii (within_size_limit 100 ("a@b.co x".toList))] ∨
      (analyze_transcript 100 (fun _ => Except.ok ("ok".toList))
          ("ts".toList) none ("a@b.co x".toList)).prompts
        = [summaryPrefix ++ redact_pii (within_size_limit 100 ("a@b.co x".toList)),
           sentimentPrefix ++ redact_pii (within_size_limit 100 ("a@b.co x".toList))]) ∧
    (∀ p ∈ (analyze_transcript 100 (fun _ => Except.ok ("ok".toList))
        ("ts".toList) none ("a@b.co x".toList)).prompts,
      ¬ within_size_limit 100 ("a@b.co x".toList) <:+: p) ∧
    (∀ r, (analyze_transcript 100 (fun _ => Except.ok ("ok".toList))
          ("ts".toList) none ("a@b.co x".toList)).result = .ok r →
      r.transcript = within_size_limit 100 ("a@b.co x".toList) ++
        (if ("a@b.co x".toList).length
            != (within_size_limit 100 ("a@b.co x".toList)).length
         then TRUNC_MARKER else []) ∧
      (analyze_transcript 100 (fun _ => Except.ok ("ok".toList))
          ("ts".toList) none ("a@b.co x".toList)).file
        = some ((Option.getD (none : Option (List LogRow)) [headerRow])
            ++ [[within_size_limit 100 ("a@b.co x".toList), r.summary,
                 r.sentiment, "ts".toList]]))) :=
  c6_redacted_prompts 100 (fun _ => Except.ok ("ok".toList)) ("ts".toList)
    none ("a@b.co x".toList) (by decide)

end Sustend
